import Mathlib

/-!
Verification of the core transformations of the PLM interpretability site:

* `toCytoscapeElements` (from `src/site/app.js`): the graph reduction that
  filters edges by a minimum weight and caps the out-degree of every source
  node.
* `clampSegs`, `segmentsToMask`, `topPositionsToMap`, `renderExampleHTML`
  (from `src/site/sequence_viewer.js`): the per-residue sequence annotator.

The JavaScript source is dynamically typed, so we first give a small model of
the JavaScript values that can occur in the JSON-shaped inputs of these
functions (numbers including NaN and the infinities, strings, booleans, null,
undefined, flat arrays and flat objects; deeper nesting does not occur in the
data these functions consume and is irrelevant to every claim below).
All definitions are computable and mirror the source line by line.
-/

namespace PLM

/-- A JavaScript number: either a finite value (modelled as a rational,
which is exact for every IEEE double appearing here), `NaN`, `+Infinity`
or `-Infinity`. -/
inductive JNum where
  | fin (q : ℚ)
  | pinf
  | ninf
  | nan
deriving DecidableEq

/-- JavaScript `<` on numbers: any comparison involving `NaN` is false. -/
def JNum.lt : JNum → JNum → Bool
  | .fin a, .fin b => decide (a < b)
  | .fin _, .pinf => true
  | .ninf, .fin _ => true
  | .ninf, .pinf => true
  | _, _ => false

/-- JavaScript `<=` on numbers: any comparison involving `NaN` is false. -/
def JNum.le : JNum → JNum → Bool
  | .fin a, .fin b => decide (a ≤ b)
  | .fin _, .pinf => true
  | .ninf, .fin _ => true
  | .ninf, .ninf => true
  | .ninf, .pinf => true
  | .pinf, .pinf => true
  | _, _ => false

/-- JavaScript `Math.min` on two numbers: `NaN` if either argument is `NaN`. -/
def jsMin : JNum → JNum → JNum
  | .nan, _ => .nan
  | _, .nan => .nan
  | a, b => if a.le b then a else b

/-- JavaScript `Math.max` on two numbers: `NaN` if either argument is `NaN`. -/
def jsMax : JNum → JNum → JNum
  | .nan, _ => .nan
  | _, .nan => .nan
  | a, b => if a.le b then b else a

/-- JavaScript `Number.isFinite`. -/
def JNum.finite : JNum → Bool
  | .fin _ => true
  | _ => false

/-- JavaScript whitespace accepted by `ToNumber` on strings. -/
def isJsSpace (c : Char) : Bool :=
  c = ' ' || c = '\t' || c = '\n' || c = '\r' || c = '\x0b' || c = '\x0c'

/-- The numeric value of a decimal digit character, if it is one. -/
def decDigit (c : Char) : Option ℕ :=
  if '0' ≤ c ∧ c ≤ '9' then some (c.toNat - 48) else none

/-- Split a leading run of decimal digits off a character list. -/
def takeDigits : List Char → (List ℕ × List Char)
  | [] => ([], [])
  | c :: rest =>
    match decDigit c with
    | some d => let p := takeDigits rest; (d :: p.1, p.2)
    | none => ([], c :: rest)

/-- The natural number denoted by a (big-endian) digit list. -/
def natOfDigits (ds : List ℕ) : ℕ := ds.foldl (fun a d => a * 10 + d) 0

/-- Parse an unsigned JavaScript string numeric literal (decimal form or
`Infinity`); `none` means the string does not parse, i.e. `NaN`.
The hexadecimal/octal/binary literal forms are not modelled: they cannot
occur in JSON-derived data. -/
def parseUnsigned (cs : List Char) : Option JNum :=
  if cs = "Infinity".toList then some .pinf else
  let p1 := takeDigits cs
  let p2 : List ℕ × List Char :=
    match p1.2 with
    | '.' :: rest => takeDigits rest
    | _ => ([], p1.2)
  if p1.1.isEmpty && p2.1.isEmpty then none else
  let base : ℚ := (natOfDigits p1.1 : ℚ) + (natOfDigits p2.1 : ℚ) / (10 : ℚ) ^ p2.1.length
  match p2.2 with
  | [] => some (.fin base)
  | e :: rest =>
    if e = 'e' || e = 'E' then
      let sgnRest : Bool × List Char :=
        match rest with
        | '+' :: t => (true, t)
        | '-' :: t => (false, t)
        | _ => (true, rest)
      let p3 := takeDigits sgnRest.2
      if p3.1.isEmpty || !p3.2.isEmpty then none
      else some (.fin (base * (10 : ℚ) ^
        (if sgnRest.1 then (natOfDigits p3.1 : ℤ) else -(natOfDigits p3.1 : ℤ))))
    else none

/-- JavaScript `Number(s)` for a string `s`. -/
def strToNumber (s : String) : JNum :=
  let cs := ((s.toList.dropWhile isJsSpace).reverse.dropWhile isJsSpace).reverse
  match cs with
  | [] => .fin 0
  | '+' :: rest => (parseUnsigned rest).getD .nan
  | '-' :: rest =>
    (match parseUnsigned rest with
     | some (.fin q) => .fin (-q)
     | some .pinf => .ninf
     | _ => .nan)
  | _ => (parseUnsigned cs).getD .nan

/-- A flat (non-nested) JavaScript value, used for the elements of arrays and
the fields of objects carried inside a `JVal`. -/
inductive JAtom where
  | anum (x : JNum)
  | astr (s : String)
  | abool (b : Bool)
  | anull
  | aundefined
deriving DecidableEq

/-- A JavaScript value as it can occur in the JSON-shaped inputs of the two
components: a number, string, boolean, `null`, `undefined`, an array of flat
values, or an object with flat fields. -/
inductive JVal where
  | vnum (x : JNum)
  | vstr (s : String)
  | vbool (b : Bool)
  | vnull
  | vundefined
  | varr (elts : List JAtom)
  | vobj (fields : List (String × JAtom))
deriving DecidableEq

/-- JavaScript `Number(v)` for a flat value. -/
def JAtom.toNumber : JAtom → JNum
  | .anum x => x
  | .astr s => strToNumber s
  | .abool b => .fin (if b then 1 else 0)
  | .anull => .fin 0
  | .aundefined => .nan

/-- JavaScript `Number(v)` (equivalently the numeric coercion done by `>=`): arrays go
through string conversion, so `[] ~> 0`, a one-element array behaves as its
element rendered to a string, and longer arrays (joined with commas) as well
as plain objects (rendered as "[object Object]") coerce to `NaN`. -/
def JVal.toNumber : JVal → JNum
  | .vnum x => x
  | .vstr s => strToNumber s
  | .vbool b => .fin (if b then 1 else 0)
  | .vnull => .fin 0
  | .vundefined => .nan
  | .varr [] => .fin 0
  | .varr [a] =>
    (match a with
     | .anull => .fin 0
     | .aundefined => .fin 0
     | .abool _ => .nan
     | x => x.toNumber)
  | .varr _ => .nan
  | .vobj _ => .nan

/-- JavaScript truthiness, as tested by `if (!t) continue`. -/
def JVal.truthy : JVal → Bool
  | .vundefined => false
  | .vnull => false
  | .vbool b => b
  | .vnum (.fin q) => decide (q ≠ 0)
  | .vnum .nan => false
  | .vnum _ => true
  | .vstr s => decide (s ≠ "")
  | _ => true

/-- Whether `v ?? d` takes the default, i.e. `v` is `null` or `undefined`. -/
def JVal.nullish : JVal → Bool
  | .vnull => true
  | .vundefined => true
  | _ => false

/-- Property access `t.k` on an arbitrary value: field lookup on objects
(with the last duplicate winning, matching `JSON.parse`), `undefined` on
everything else. -/
def JVal.getProp : JVal → String → JAtom
  | .vobj fields, k => fields.foldl (fun acc p => if p.1 = k then p.2 else acc) .aundefined
  | _, _ => .aundefined

/-- A JavaScript object with arbitrary (possibly nested one level) values:
an insertion-ordered field list.  Graph nodes and edges are such records. -/
abbrev Obj := List (String × JVal)

/-- Property read `o.k`: the last binding of `k` wins (matching both
`JSON.parse` duplicate-key semantics and object-literal update order);
`undefined` when the key is absent. -/
def objGet (o : Obj) (k : String) : JVal :=
  o.foldl (fun acc p => if p.1 = k then p.2 else acc) .vundefined

/-- Whether the object has the key as an own property. -/
def objHasKey (o : Obj) (k : String) : Bool := o.any (fun p => p.1 = k)

/-- Property write `o[k] = v`: overwrite in place if present, append if not. -/
def objSet (o : Obj) (k : String) (v : JVal) : Obj :=
  if objHasKey o k then o.map (fun p => if p.1 = k then (k, v) else p) else o ++ [(k, v)]

/-- Object spread `{ ...base-literal-so-far, ...fields }`: write every field
of `fields` onto `base` in order. -/
def objExtend (base : Obj) (fields : Obj) : Obj :=
  fields.foldl (fun o p => objSet o p.1 p.2) base

/-! ### `toCytoscapeElements` from `src/site/app.js`

The input graph is `{ nodes: [...], edges: [...] }` where nodes and edges are
arbitrary JSON records.  The function

* keeps every node, wrapped as `{ data: { id: n.id, ...n } }`;
* filters the edges by `(e.weight ?? 0) >= minEdgeWeight`;
* wraps each surviving edge, in order, as
  `{ data: { id: e<idx>, source: e.src, target: e.dst, ...e } }`
  with `idx` its position in the filtered list;
* groups the wrapped edges by `e.data.source` in a `Map` (first-insertion
  key order, `SameValueZero` key equality, which `DecidableEq JVal` models,
  including `NaN` being equal to itself);
* sorts each group by `(b.data.weight ?? 0) - (a.data.weight ?? 0)` —
  `Array.prototype.sort` is stable (ES2019), and any stable sort computes
  the same list, which `sortEdges` below (a stable insertion sort placing
  each element before the first element not strictly greater) also does;
* keeps the first `maxEdgesPerNode` of each group via `slice(0, k)`
  (`List.take`), and concatenates the groups. -/

/-- The raw input graph: `{ nodes, edges }`. -/
structure Graph where
  nodes : List Obj
  edges : List Obj
deriving DecidableEq

/-- A cytoscape element `{ data: {...} }`. -/
structure CyElement where
  data : Obj
deriving DecidableEq

/-- Fuelled little-endian digit extraction (structural recursion, so the
kernel can evaluate it; any fuel above the digit count gives the same
answer). -/
def natDigitsRevAux : ℕ → ℕ → List ℕ
  | 0, _ => []
  | fuel + 1, n => if n < 10 then [n] else n % 10 :: natDigitsRevAux fuel (n / 10)

/-- The little-endian decimal digits of a natural number (JavaScript's
decimal rendering of an integer-valued number, reversed). -/
def natDigitsRev (n : ℕ) : List ℕ := natDigitsRevAux (n + 1) n

/-- A decimal digit character. -/
def digitChar (d : ℕ) : Char := Char.ofNat (48 + d)

/-- JavaScript's `String(n)` for a natural number: its decimal rendering. -/
def natRepr (n : ℕ) : String := String.mk ((natDigitsRev n).reverse.map digitChar)

/-- JavaScript `v >= w` for a value `v` and a finite number `w`:
`v` is coerced with `ToNumber`; any comparison involving `NaN` is false. -/
def jsGeQ (v : JVal) (w : ℚ) : Bool := JNum.le (.fin w) v.toNumber

/-- The defaulted weight `e.weight ?? 0`. -/
def weightOrZero (e : Obj) : JVal :=
  if (objGet e "weight").nullish then .vnum (.fin 0) else objGet e "weight"

/-- The threshold predicate `(e.weight ?? 0) >= minEdgeWeight`. -/
def weightFilter (minEdgeWeight : ℚ) (e : Obj) : Bool :=
  jsGeQ (weightOrZero e) minEdgeWeight

/-- The wrapped edge
`{ data: { id: "e" + idx, source: e.src, target: e.dst, ...e } }` —
note the spread comes last, so fields of the input record override the
three generated ones. -/
def mkCyEdge (idx : ℕ) (e : Obj) : CyElement :=
  ⟨objExtend [("id", .vstr ("e" ++ natRepr idx)), ("source", objGet e "src"),
              ("target", objGet e "dst")] e⟩

/-- The loop `.map((e, idx) => ...)`: wrap each filtered edge with its index. -/
def wrapEdges (idx : ℕ) : List Obj → List CyElement
  | [] => []
  | e :: es => mkCyEdge idx e :: wrapEdges (idx + 1) es

/-- The wrapped node `{ data: { id: n.id, ...n } }`. -/
def mkCyNode (n : Obj) : CyElement := ⟨objExtend [("id", objGet n "id")] n⟩

/-- The sort key `e.data.weight ?? 0`, coerced to a number as the subtraction
in the comparator does. -/
def sortKey (ce : CyElement) : JNum := (weightOrZero ce.data).toNumber

/-- The grouping key `e.data.source`. -/
def srcKey (ce : CyElement) : JVal := objGet ce.data "source"

/-- Insert an edge into a weight-descending list: it goes after every edge of
strictly greater weight and before the first other one, which is exactly
where a stable descending sort puts it relative to earlier input. -/
def insertEdge (e : CyElement) : List CyElement → List CyElement
  | [] => [e]
  | x :: xs => if JNum.lt (sortKey e) (sortKey x) then x :: insertEdge e xs else e :: x :: xs

/-- The stable weight-descending sort performed by
`arr.sort((a, b) => (b.data.weight ?? 0) - (a.data.weight ?? 0))`. -/
def sortEdges (l : List CyElement) : List CyElement := l.foldr insertEdge []

/-- One step of building the `bySrc` map: append the edge to its key's group,
or start a new group at the end (JS `Map` iterates in first-insertion order). -/
def addToGroups (gs : List (JVal × List CyElement)) (k : JVal) (e : CyElement) :
    List (JVal × List CyElement) :=
  match gs with
  | [] => [(k, [e])]
  | (k2, l) :: rest =>
    if k2 = k then (k2, l ++ [e]) :: rest else (k2, l) :: addToGroups rest k e

/-- The `bySrc` map of `toCytoscapeElements`. -/
def groupBySrc (edges : List CyElement) : List (JVal × List CyElement) :=
  edges.foldl (fun gs e => addToGroups gs (srcKey e) e) []

/-- The output `{ nodes, edges }` of `toCytoscapeElements`. -/
structure CyElements where
  nodes : List CyElement
  edges : List CyElement
deriving DecidableEq

/-- The function `toCytoscapeElements(graph, minEdgeWeight, maxEdgesPerNode)` from
`src/site/app.js` (lines 35-67). -/
def toCytoscapeElements (graph : Graph) (minEdgeWeight : ℚ) (maxEdgesPerNode : ℕ) :
    CyElements :=
  let nodes := graph.nodes.map mkCyNode
  let edges := wrapEdges 0 (graph.edges.filter (weightFilter minEdgeWeight))
  let prunedEdges := (groupBySrc edges).flatMap (fun g => (sortEdges g.2).take maxEdgesPerNode)
  { nodes := nodes, edges := prunedEdges }

/-! ### The sequence annotator from `src/site/sequence_viewer.js`

`clampSegs`, `segmentsToMask`, `topPositionsToMap` and the line-building loop
of `renderExampleHTML` are translated below.  `renderExampleHTML` produces
markup; we model the data content of that markup: the list of lines, each
with its displayed 1-indexed start/end positions and its per-residue cells
(character, highlight category, top-position flag and activation). -/

/-- The endpoint clamping `Math.max(0, Math.min(L - 1, Number(x)))` of the
`clampSegs` loop. -/
def clampNum (L : ℕ) (x : JNum) : JNum := jsMax (.fin 0) (jsMin (.fin ((L : ℚ) - 1)) x)

/-- The function `clampSegs(segs, L)` (lines 30-42): keep entries that are arrays of
length at least 2; coerce the first two elements to numbers; clamp each into
`[0, L-1]` via `Math.max(0, Math.min(L - 1, x))` (for `L = 0` this clamps to
`0`, and it maps the infinities to in-range values); drop the entry if
either clamped endpoint is not finite (only `NaN` survives clamping as
non-finite); swap the endpoints if they are out of order. -/
def clampSegs : List JVal → ℕ → List (ℚ × ℚ)
  | [], _ => []
  | .varr (x :: y :: _) :: rest, L =>
    (match clampNum L x.toNumber, clampNum L y.toNumber with
     | .fin a, .fin b => (if b < a then (b, a) else (a, b)) :: clampSegs rest L
     | _, _ => clampSegs rest L)
  | _ :: rest, L => clampSegs rest L

/-- The per-entry normalisation performed by one iteration of the
`clampSegs` loop: `none` means the entry is skipped. -/
def normEntry (L : ℕ) (s : JVal) : Option (ℚ × ℚ) :=
  match s with
  | .varr (x :: y :: _) =>
    (match clampNum L x.toNumber, clampNum L y.toNumber with
     | .fin a, .fin b => some (if b < a then (b, a) else (a, b))
     | _, _ => none)
  | _ => none

/-- The rationals visited by the loop `for (let i = a; i <= b; i++)`:
`a, a+1, ...` while `≤ b`.  (The endpoints of a clamped segment may be
fractional, in which case the loop marks non-integer array keys that the
integer reads of the renderer never see.) -/
def segMarks (a b : ℚ) : List ℚ :=
  (List.range (if a ≤ b then ((b - a).floor + 1).toNat else 0)).map (fun k => a + (k : ℚ))

/-- Re-inject a clamped segment (a JS two-element array of finite numbers)
as a value, as `renderExampleHTML` does when it passes the already-clamped
segments to `segmentsToMask`. -/
def pairJVal (p : ℚ × ℚ) : JVal := .varr [.anum (.fin p.1), .anum (.fin p.2)]

/-- The mask `segmentsToMask(segs, L)` (lines 44-50) read at integer index `i`:
the mask array has length `L` (reads past it give `undefined`, i.e.
`false`); position `i` is marked iff some clamped segment's loop visits
exactly `i`. -/
def segmentsToMask (segs : List JVal) (L : ℕ) (i : ℕ) : Bool :=
  decide (i < L) &&
    (clampSegs segs L).any (fun p => (segMarks p.1 p.2).any (fun q => decide (q = (i : ℚ))))

/-- JavaScript `Map.set` on a position-to-score map: overwrite in place or append. -/
def mapSet (m : List (ℚ × ℚ)) (k v : ℚ) : List (ℚ × ℚ) :=
  if m.any (fun p => decide (p.1 = k)) then
    m.map (fun p => if p.1 = k then (k, v) else p)
  else m ++ [(k, v)]

/-- JavaScript `Map.get`: `none` is JavaScript's `undefined`. -/
def mapGet (m : List (ℚ × ℚ)) (k : ℚ) : Option ℚ :=
  (m.find? (fun p => decide (p.1 = k))).map Prod.snd

/-- The function `topPositionsToMap(topPositions)` (lines 52-64): skip falsy entries,
coerce `t.pos` and `t.act` to numbers, and keep the pair only when both are
finite. -/
def topPositionsToMap (topPositions : List JVal) : List (ℚ × ℚ) :=
  topPositions.foldl
    (fun m t =>
      if t.truthy then
        match (t.getProp "pos").toNumber, (t.getProp "act").toNumber with
        | .fin pos, .fin act => mapSet m pos act
        | _, _ => m
      else m)
    []

/-- One example record of `features.json`, as consumed by
`renderExampleHTML` (the pass-through display metrics `accession`,
`max_act`, `threshold`, `overlap_frac_feature_in_behavior` play no role in
the classification and are omitted). -/
structure SeqExample where
  sequence : List Char
  behavior_segments : List JVal
  feature_segments : List JVal
  top_positions : List JVal
deriving DecidableEq

/-- The highlight category of a residue, i.e. which of the CSS classes
`both` / `beh` / `feat` (or none of them, `plain`) the rendered span gets. -/
inductive Category where
  | plain
  | beh
  | feat
  | both
deriving DecidableEq

/-- The if/else-if chain of lines 122-125 building the class string. -/
def classify (inBeh inFeat : Bool) : Category :=
  if inBeh && inFeat then .both else if inBeh then .beh else if inFeat then .feat else .plain

/-- The data of one rendered residue span: 0-indexed position, its
character, its highlight category, whether it carries the `top` marker, and
the activation shown in its tooltip when it does. -/
structure Cell where
  pos : ℕ
  aa : Char
  category : Category
  isTop : Bool
  act : Option ℚ
deriving DecidableEq

/-- The data of one rendered line: the 1-indexed inclusive start and end
positions shown at its margins, and its residue cells. -/
structure SeqLine where
  leftIdx : ℕ
  rightIdx : ℕ
  cells : List Cell
deriving DecidableEq

/-- The `behSegs` of `renderExampleHTML`: the behavior segments clamped to the
sequence length. -/
def exBehSegs (ex : SeqExample) : List (ℚ × ℚ) :=
  clampSegs ex.behavior_segments ex.sequence.length

/-- The `featSegs` of `renderExampleHTML`. -/
def exFeatSegs (ex : SeqExample) : List (ℚ × ℚ) :=
  clampSegs ex.feature_segments ex.sequence.length

/-- The `behMask[i]` of `renderExampleHTML` (mask built from the already-clamped
segments, re-clamped inside `segmentsToMask` exactly as the source does). -/
def exBehMask (ex : SeqExample) (i : ℕ) : Bool :=
  segmentsToMask ((exBehSegs ex).map pairJVal) ex.sequence.length i

/-- The `featMask[i]` of `renderExampleHTML`. -/
def exFeatMask (ex : SeqExample) (i : ℕ) : Bool :=
  segmentsToMask ((exFeatSegs ex).map pairJVal) ex.sequence.length i

/-- The cell built for position `i` by the inner loop of lines 117-140. -/
def mkCell (ex : SeqExample) (i : ℕ) : Cell :=
  let inBeh := exBehMask ex i
  let inFeat := exFeatMask ex i
  let act := mapGet (topPositionsToMap ex.top_positions) (i : ℚ)
  { pos := i, aa := ex.sequence.getD i ' ', category := classify inBeh inFeat,
    isTop := act.isSome, act := act }

/-- The line-building loop `for (let start = 0; start < L; start += lineLen)`
of lines 113-151, from a given `start` (fuelled structural recursion: the
loop runs at most `L` more times once it has started, so any fuel above
`L - start` gives the loop's answer).  For `lineLen = 0` the JavaScript
loop would not terminate; the model returns no lines in that case and every
theorem below assumes a positive `lineLen`. -/
def buildLinesAux (ex : SeqExample) (lineLen : ℕ) : ℕ → ℕ → List SeqLine
  | 0, _ => []
  | fuel + 1, start =>
    if 0 < lineLen ∧ start < ex.sequence.length then
      { leftIdx := start + 1, rightIdx := min ex.sequence.length (start + lineLen),
        cells := (List.range' start (min ex.sequence.length (start + lineLen) - start)).map
          (mkCell ex) }
        :: buildLinesAux ex lineLen fuel (start + lineLen)
    else []

/-- The rendered line data of `renderExampleHTML(example, opts)`
(lines 72-160). -/
def renderExampleHTML (ex : SeqExample) (lineLen : ℕ) : List SeqLine :=
  buildLinesAux ex lineLen (ex.sequence.length + 1) 0

/-! ### Lemmas about the object model -/

/-- Generalised-accumulator description of the `objGet` fold. -/
theorem objGet_go (o : Obj) (k : String) (acc : JVal) :
    o.foldl (fun acc p => if p.1 = k then p.2 else acc) acc =
      if objHasKey o k then objGet o k else acc := by
  induction o generalizing acc with
  | nil => simp [objHasKey]
  | cons p o ih =>
    have hh : objHasKey (p :: o) k = (decide (p.1 = k) || objHasKey o k) := by
      simp [objHasKey]
    have hg : objGet (p :: o) k =
        o.foldl (fun acc p => if p.1 = k then p.2 else acc)
          (if p.1 = k then p.2 else JVal.vundefined) := rfl
    rw [List.foldl_cons, ih, hh, hg, ih]
    by_cases h1 : objHasKey o k <;> by_cases h2 : p.1 = k <;> simp [h1, h2]

theorem objGet_cons (p : String × JVal) (o : Obj) (k : String) :
    objGet (p :: o) k =
      if objHasKey o k then objGet o k else if p.1 = k then p.2 else .vundefined := by
  have hg : objGet (p :: o) k =
      o.foldl (fun acc p => if p.1 = k then p.2 else acc)
        (if p.1 = k then p.2 else JVal.vundefined) := rfl
  rw [hg, objGet_go]

theorem objGet_of_not_hasKey {o : Obj} {k : String} (h : objHasKey o k = false) :
    objGet o k = .vundefined := by
  have hg : objGet o k =
      o.foldl (fun acc p => if p.1 = k then p.2 else acc) JVal.vundefined := rfl
  rw [hg, objGet_go, h]
  simp

theorem objGet_append (o1 o2 : Obj) (k : String) :
    objGet (o1 ++ o2) k = if objHasKey o2 k then objGet o2 k else objGet o1 k := by
  have hg : objGet (o1 ++ o2) k =
      o2.foldl (fun acc p => if p.1 = k then p.2 else acc) (objGet o1 k) := by
    simp only [objGet, List.foldl_append]
  rw [hg, objGet_go o2 k]

theorem objGet_singleton (p : String × JVal) (k : String) :
    objGet [p] k = if p.1 = k then p.2 else .vundefined := by
  simp [objGet]

theorem objHasKey_append (o1 o2 : Obj) (k : String) :
    objHasKey (o1 ++ o2) k = (objHasKey o1 k || objHasKey o2 k) := by
  simp [objHasKey]

theorem objHasKey_singleton (p : String × JVal) (k : String) :
    objHasKey [p] k = decide (p.1 = k) := by
  simp [objHasKey]

theorem objGet_mapSet_of_hasKey {o : Obj} {k : String} (v : JVal)
    (h : objHasKey o k = true) :
    objGet (o.map (fun p => if p.1 = k then (k, v) else p)) k = v := by
  induction o using List.reverseRecOn with
  | nil => simp [objHasKey] at h
  | append_singleton o p ih =>
    rw [List.map_append, List.map_singleton, objGet_append]
    by_cases hp : p.1 = k
    · simp [hp, objGet_singleton, objHasKey_singleton]
    · have h' : objHasKey o k = true := by
        simpa [objHasKey_append, objHasKey_singleton, hp] using h
      simp [hp, objGet_singleton, objHasKey_singleton, ih h']

theorem objGet_objSet_self (o : Obj) (k : String) (v : JVal) :
    objGet (objSet o k v) k = v := by
  unfold objSet
  by_cases h : objHasKey o k
  · simpa [h] using objGet_mapSet_of_hasKey v h
  · simp [h, objGet_append, objGet_singleton, objHasKey_singleton]

theorem objGet_mapSet_ne (o : Obj) {k k' : String} (v : JVal) (h : k' ≠ k) :
    objGet (o.map (fun p => if p.1 = k then (k, v) else p)) k' = objGet o k' := by
  induction o using List.reverseRecOn with
  | nil => rfl
  | append_singleton o p ih =>
    rw [List.map_append, List.map_singleton, objGet_append, objGet_append]
    by_cases hp : p.1 = k
    · have hk2 : ¬ (k = k') := fun hkk => h hkk.symm
      simp [hp, objGet_singleton, objHasKey_singleton, hk2, ih]
    · by_cases hpk : p.1 = k'
      · simp [hp, hpk, h, objGet_singleton, objHasKey_singleton]
      · simp [hp, hpk, objGet_singleton, objHasKey_singleton, ih]

theorem objGet_objSet_ne (o : Obj) {k k' : String} (v : JVal) (h : k' ≠ k) :
    objGet (objSet o k v) k' = objGet o k' := by
  unfold objSet
  by_cases hk : objHasKey o k
  · simpa [hk] using objGet_mapSet_ne o v h
  · rw [if_neg hk, objGet_append, objGet_singleton]
    simp only [objHasKey_singleton]
    have hkk : ¬ (k = k') := fun hkk => h hkk.symm
    simp [hkk]

/-- With duplicate-free keys, reading a field that is present gives its
value. -/
theorem objGet_of_mem {o : Obj} {k : String} {v : JVal}
    (hnd : (o.map Prod.fst).Nodup) (hmem : (k, v) ∈ o) : objGet o k = v := by
  induction o with
  | nil => simp at hmem
  | cons p rest ih =>
    simp only [List.map_cons, List.nodup_cons] at hnd
    rw [objGet_cons]
    rcases List.mem_cons.mp hmem with h | h
    · have hpk : p = (k, v) := h.symm
      subst hpk
      have hno : objHasKey rest k = false := by
        unfold objHasKey
        rw [List.any_eq_false]
        intro p2 hp2
        simp only [decide_eq_true_eq]
        intro hk
        exact hnd.1 (hk ▸ List.mem_map.mpr ⟨p2, hp2, rfl⟩)
      simp [hno]
    · have hk : objHasKey rest k = true :=
        List.any_eq_true.mpr ⟨(k, v), h, by simp⟩
      simp [hk, ih hnd.2 h]

/-- Reading the spread `{ ...base, ...fields }`: a field present in
`fields` wins, anything else falls through to `base`. -/
theorem objGet_objExtend (base fields : Obj) (k : String) :
    objGet (objExtend base fields) k =
      if objHasKey fields k then objGet fields k else objGet base k := by
  induction fields generalizing base with
  | nil => simp [objExtend, objHasKey]
  | cons f fs ih =>
    show objGet (objExtend (objSet base f.1 f.2) fs) k = _
    rw [ih, objGet_cons]
    have hh : objHasKey (f :: fs) k = (decide (f.1 = k) || objHasKey fs k) := by
      simp [objHasKey]
    rw [hh]
    by_cases h1 : objHasKey fs k
    · simp [h1]
    · by_cases h2 : f.1 = k
      · subst h2
        simp [h1, objGet_objSet_self]
      · simp [h1, h2, objGet_objSet_ne base f.2 (fun hk : k = f.1 => h2 hk.symm)]

/-- Every field of the spread record keeps its value in the result
(duplicate-free keys, as in any real JavaScript object). -/
theorem objGet_objExtend_of_mem (base : Obj) {fields : Obj} {k : String} {v : JVal}
    (hnd : (fields.map Prod.fst).Nodup) (hmem : (k, v) ∈ fields) :
    objGet (objExtend base fields) k = v := by
  rw [objGet_objExtend,
    if_pos (show objHasKey fields k = true from List.any_eq_true.mpr ⟨(k, v), hmem, by simp⟩),
    objGet_of_mem hnd hmem]

/-! ### The generated edge identifiers are pairwise distinct -/

/-- The value of a little-endian digit list. -/
def natOfDigitsRev (ds : List ℕ) : ℕ := ds.foldr (fun d acc => d + 10 * acc) 0

theorem natOfDigitsRev_natDigitsRevAux :
    ∀ (fuel n : ℕ), n < fuel → natOfDigitsRev (natDigitsRevAux fuel n) = n := by
  intro fuel
  induction fuel with
  | zero => intro n h; omega
  | succ fuel ih =>
    intro n h
    unfold natDigitsRevAux
    by_cases h10 : n < 10
    · simp [h10, natOfDigitsRev]
    · rw [if_neg h10]
      simp only [natOfDigitsRev, List.foldr_cons] at ih ⊢
      rw [ih (n / 10) (by omega)]
      omega

theorem natOfDigitsRev_natDigitsRev (n : ℕ) : natOfDigitsRev (natDigitsRev n) = n :=
  natOfDigitsRev_natDigitsRevAux (n + 1) n (by omega)

theorem natDigitsRev_injective : Function.Injective natDigitsRev := by
  intro a b h
  have := natOfDigitsRev_natDigitsRev a
  rw [h, natOfDigitsRev_natDigitsRev] at this
  exact this.symm

theorem natDigitsRevAux_lt_ten :
    ∀ (fuel n : ℕ), ∀ d ∈ natDigitsRevAux fuel n, d < 10 := by
  intro fuel
  induction fuel with
  | zero => intro n d hd; simp [natDigitsRevAux] at hd
  | succ fuel ih =>
    intro n d hd
    unfold natDigitsRevAux at hd
    by_cases h10 : n < 10
    · simp [h10] at hd; omega
    · rw [if_neg h10] at hd
      rcases List.mem_cons.mp hd with h1 | h1
      · omega
      · exact ih (n / 10) d h1

theorem natDigitsRev_lt_ten (n : ℕ) : ∀ d ∈ natDigitsRev n, d < 10 :=
  natDigitsRevAux_lt_ten (n + 1) n

theorem digitChar_inj : ∀ a < 10, ∀ b < 10, digitChar a = digitChar b → a = b := by
  decide

theorem map_digitChar_inj : ∀ (l1 l2 : List ℕ), (∀ d ∈ l1, d < 10) → (∀ d ∈ l2, d < 10) →
    l1.map digitChar = l2.map digitChar → l1 = l2 := by
  intro l1
  induction l1 with
  | nil => intro l2 _ _ h; cases l2 <;> simp_all
  | cons a l1 ih =>
    intro l2 h1 h2 h
    cases l2 with
    | nil => simp at h
    | cons b l2 =>
      simp only [List.map_cons, List.cons.injEq] at h
      have ha := h1 a (by simp)
      have hb := h2 b (by simp)
      have : a = b := digitChar_inj a ha b hb h.1
      rw [this, ih l2 (fun d hd => h1 d (by simp [hd])) (fun d hd => h2 d (by simp [hd])) h.2]

theorem natRepr_injective : Function.Injective natRepr := by
  intro a b h
  unfold natRepr at h
  have hdata : ((natDigitsRev a).reverse.map digitChar) =
      ((natDigitsRev b).reverse.map digitChar) := congrArg String.data h
  have hrev : (natDigitsRev a).reverse = (natDigitsRev b).reverse :=
    map_digitChar_inj _ _ (fun d hd => natDigitsRev_lt_ten a d (List.mem_reverse.mp hd))
      (fun d hd => natDigitsRev_lt_ten b d (List.mem_reverse.mp hd)) hdata
  exact natDigitsRev_injective (List.reverse_injective hrev)

theorem genId_injective : Function.Injective (fun idx => "e" ++ natRepr idx) := by
  intro a b h
  simp only at h
  have hdata := congrArg String.data h
  rw [String.data_append, String.data_append] at hdata
  exact natRepr_injective (String.ext (by simpa using hdata))

/-! ### Fields of the wrapped edges -/

/-- Reading the weight of a wrapped edge gives the raw edge's weight (the
three generated keys differ from "weight", so the spread decides). -/
theorem data_weight_mkCyEdge (idx : ℕ) (e : Obj) :
    objGet (mkCyEdge idx e).data "weight" = objGet e "weight" := by
  show objGet (objExtend _ e) "weight" = _
  rw [objGet_objExtend]
  by_cases h : objHasKey e "weight"
  · simp [h]
  · rw [if_neg h,
      objGet_of_not_hasKey (show objHasKey e "weight" = false by simpa using h)]
    simp [objGet]

theorem sortKey_mkCyEdge (idx : ℕ) (e : Obj) :
    sortKey (mkCyEdge idx e) = (weightOrZero e).toNumber := by
  unfold sortKey weightOrZero
  rw [data_weight_mkCyEdge]

/-- The source key of a wrapped edge: the raw record's own `source` field if
it has one (the spread overrides), otherwise the generated `e.src`. -/
theorem srcKey_mkCyEdge (idx : ℕ) (e : Obj) :
    srcKey (mkCyEdge idx e) =
      if objHasKey e "source" then objGet e "source" else objGet e "src" := by
  show objGet (objExtend _ e) "source" = _
  rw [objGet_objExtend]
  by_cases h : objHasKey e "source"
  · simp [h]
  · simp [h, objGet]

/-- The id of a wrapped edge whose raw record does not carry an own `id`
field is the generated `"e" + idx`. -/
theorem data_id_mkCyEdge {e : Obj} (idx : ℕ) (h : objHasKey e "id" = false) :
    objGet (mkCyEdge idx e).data "id" = .vstr ("e" ++ natRepr idx) := by
  show objGet (objExtend _ e) "id" = _
  rw [objGet_objExtend, if_neg (by simp [h])]
  simp [objGet]

/-- Membership description of the wrapped filtered edge list. -/
theorem mem_wrapEdges {ce : CyElement} :
    ∀ {l : List Obj} {i : ℕ}, ce ∈ wrapEdges i l → ∃ idx e, e ∈ l ∧ ce = mkCyEdge idx e := by
  intro l
  induction l with
  | nil => intro i h; simp [wrapEdges] at h
  | cons e es ih =>
    intro i h
    rcases List.mem_cons.mp h with h1 | h1
    · exact ⟨i, e, by simp, h1⟩
    · rcases ih h1 with ⟨idx, e2, he2, hce⟩
      exact ⟨idx, e2, by simp [he2], hce⟩

/-- The ids of the wrapped edges, when no raw edge carries an own `id`
field: `"e0", "e1", ...` continuing from the start index. -/
theorem wrapEdges_map_id {l : List Obj} (h : ∀ e ∈ l, objHasKey e "id" = false) (i : ℕ) :
    (wrapEdges i l).map (fun ce => objGet ce.data "id") =
      (List.range' i l.length).map (fun j => JVal.vstr ("e" ++ natRepr j)) := by
  induction l generalizing i with
  | nil => simp [wrapEdges]
  | cons e es ih =>
    simp only [wrapEdges, List.map_cons, List.length_cons, List.range', List.map]
    rw [data_id_mkCyEdge i (h e (by simp)), ih (fun e2 he2 => h e2 (by simp [he2]))]

/-! ### The sort performed on each source group -/

theorem insertEdge_perm (e : CyElement) (l : List CyElement) :
    (insertEdge e l).Perm (e :: l) := by
  induction l with
  | nil => simp [insertEdge]
  | cons x xs ih =>
    unfold insertEdge
    by_cases h : JNum.lt (sortKey e) (sortKey x)
    · rw [if_pos h]
      exact (ih.cons x).trans (List.Perm.swap e x xs)
    · rw [if_neg h]

theorem sortEdges_perm (l : List CyElement) : (sortEdges l).Perm l := by
  induction l with
  | nil => simp [sortEdges]
  | cons x xs ih =>
    show (insertEdge x (sortEdges xs)).Perm _
    exact (insertEdge_perm x (sortEdges xs)).trans (ih.cons x)

theorem mem_sortEdges {x : CyElement} {l : List CyElement} :
    x ∈ sortEdges l ↔ x ∈ l := (sortEdges_perm l).mem_iff

theorem JNum.lt_irrefl (x : JNum) : JNum.lt x x = false := by
  cases x <;> simp [JNum.lt]

/-- Inserting an edge whose key equals `q` prepends it to the key-`q`
subsequence: everything it jumps over has a strictly greater key. -/
theorem filter_insertEdge_eq (q : JNum) (e : CyElement) (l : List CyElement)
    (hq : sortKey e = q) :
    (insertEdge e l).filter (fun x => decide (sortKey x = q)) =
      e :: l.filter (fun x => decide (sortKey x = q)) := by
  induction l with
  | nil => simp [insertEdge, hq]
  | cons x xs ih =>
    unfold insertEdge
    by_cases h : JNum.lt (sortKey e) (sortKey x)
    · rw [if_pos h]
      have hxq : ¬ (sortKey x = q) := by
        intro hxq
        rw [hq, ← hxq] at h
        rw [JNum.lt_irrefl] at h
        exact Bool.false_ne_true h
      simp only [List.filter_cons]
      simp [hxq, ih]
    · rw [if_neg h]
      simp [List.filter_cons, hq]

theorem filter_insertEdge_ne (q : JNum) (e : CyElement) (l : List CyElement)
    (hq : ¬ (sortKey e = q)) :
    (insertEdge e l).filter (fun x => decide (sortKey x = q)) =
      l.filter (fun x => decide (sortKey x = q)) := by
  induction l with
  | nil => simp [insertEdge, hq]
  | cons x xs ih =>
    unfold insertEdge
    by_cases h : JNum.lt (sortKey e) (sortKey x)
    · rw [if_pos h]
      simp only [List.filter_cons]
      by_cases hx : sortKey x = q <;> simp [hx, ih]
    · rw [if_neg h]
      simp [List.filter_cons, hq]

/-- Stability of the sort: within each weight class the input order is kept
verbatim. -/
theorem sortEdges_stable (l : List CyElement) (q : JNum) :
    (sortEdges l).filter (fun x => decide (sortKey x = q)) =
      l.filter (fun x => decide (sortKey x = q)) := by
  induction l with
  | nil => simp [sortEdges]
  | cons x xs ih =>
    show (insertEdge x (sortEdges xs)).filter _ = _
    by_cases hx : sortKey x = q
    · rw [filter_insertEdge_eq q x (sortEdges xs) hx, ih]
      simp [List.filter_cons, hx]
    · rw [filter_insertEdge_ne q x (sortEdges xs) hx, ih]
      simp [List.filter_cons, hx]

/-- The non-ascending-key relation the sorted list is pairwise ordered by. -/
def DescBy (a b : CyElement) : Prop := JNum.lt (sortKey a) (sortKey b) = false

theorem JNum.lt_asymm2 {a b : JNum} (h : JNum.lt a b = true) : JNum.lt b a = false := by
  cases a <;> cases b <;> simp_all [JNum.lt] <;> linarith

theorem JNum.not_lt_trans {a b c : JNum} (hb : b ≠ .nan) (h1 : JNum.lt a b = false)
    (h2 : JNum.lt b c = false) : JNum.lt a c = false := by
  cases a <;> cases b <;> cases c <;> simp_all [JNum.lt] <;> linarith

theorem insertEdge_pairwise {e : CyElement} {l : List CyElement}
    (hnn : ∀ x ∈ e :: l, sortKey x ≠ .nan)
    (hp : l.Pairwise DescBy) : (insertEdge e l).Pairwise DescBy := by
  induction l with
  | nil => simp [insertEdge]
  | cons x xs ih =>
    rcases List.pairwise_cons.mp hp with ⟨hx, hxs⟩
    unfold insertEdge
    by_cases h : JNum.lt (sortKey e) (sortKey x)
    · rw [if_pos h]
      refine List.pairwise_cons.mpr ⟨?_, ih (by
        intro z hz
        rcases List.mem_cons.mp hz with h1 | h1
        · exact hnn z (by simp [h1])
        · exact hnn z (by simp [h1])) hxs⟩
      intro y hy
      have hy2 : y ∈ e :: xs := (insertEdge_perm e xs).mem_iff.mp hy
      rcases List.mem_cons.mp hy2 with h1 | h1
      · subst h1
        exact JNum.lt_asymm2 h
      · exact hx y h1
    · rw [if_neg h]
      refine List.pairwise_cons.mpr ⟨?_, hp⟩
      intro y hy
      rcases List.mem_cons.mp hy with h1 | h1
      · subst h1
        simpa [DescBy] using h
      · show JNum.lt (sortKey e) (sortKey y) = false
        exact JNum.not_lt_trans (hnn x (by simp)) (by simpa [DescBy] using h) (hx y h1)

theorem sortEdges_pairwise {l : List CyElement}
    (hnn : ∀ x ∈ l, sortKey x ≠ .nan) :
    (sortEdges l).Pairwise DescBy := by
  induction l with
  | nil => simp [sortEdges]
  | cons x xs ih =>
    show (insertEdge x (sortEdges xs)).Pairwise DescBy
    refine insertEdge_pairwise ?_ (ih (fun y hy => hnn y (by simp [hy])))
    intro y hy
    rcases List.mem_cons.mp hy with h1 | h1
    · exact hnn y (by simp [h1])
    · exact hnn y (by simp [mem_sortEdges.mp h1])

/-! ### The `bySrc` grouping -/

/-- Look a key up in the group list (the empty group when absent). -/
def groupLookupD (gs : List (JVal × List CyElement)) (s : JVal) : List CyElement :=
  match gs.find? (fun g => decide (g.1 = s)) with
  | some g => g.2
  | none => []

theorem groupLookupD_addToGroups (gs : List (JVal × List CyElement)) (k : JVal)
    (e : CyElement) (s : JVal) :
    groupLookupD (addToGroups gs k e) s =
      groupLookupD gs s ++ (if k = s then [e] else []) := by
  induction gs with
  | nil =>
    by_cases h : k = s <;> simp [addToGroups, groupLookupD, List.find?, h]
  | cons g rest ih =>
    obtain ⟨k2, l⟩ := g
    unfold addToGroups
    by_cases h1 : k2 = k
    · rw [if_pos h1]
      by_cases h2 : k2 = s
      · subst h1; subst h2
        simp [groupLookupD, List.find?]
      · have hks : ¬ (k = s) := fun hk => h2 (h1.trans hk)
        subst h1
        simp [groupLookupD, List.find?, h2, hks]
    · rw [if_neg h1]
      by_cases h2 : k2 = s
      · have hks : ¬ (k = s) := fun hk => h1 (h2.trans hk.symm)
        simp [groupLookupD, List.find?, h2, hks]
      · simp only [groupLookupD, List.find?] at ih ⊢
        simp [h2, ih]

theorem groupLookupD_foldl (l : List CyElement) :
    ∀ (gs : List (JVal × List CyElement)) (s : JVal),
      groupLookupD (l.foldl (fun gs e => addToGroups gs (srcKey e) e) gs) s =
        groupLookupD gs s ++ l.filter (fun x => decide (srcKey x = s)) := by
  induction l with
  | nil => simp
  | cons x xs ih =>
    intro gs s
    rw [List.foldl_cons, ih, groupLookupD_addToGroups, List.filter_cons]
    by_cases h : srcKey x = s <;> simp [h]

/-- The group of a source key contains exactly the wrapped edges with that
key, in input order. -/
theorem groupLookupD_groupBySrc (l : List CyElement) (s : JVal) :
    groupLookupD (groupBySrc l) s = l.filter (fun x => decide (srcKey x = s)) := by
  unfold groupBySrc
  rw [groupLookupD_foldl]
  simp [groupLookupD, List.find?]

/-- Well-formedness of the group list: distinct keys, and every member of a
group has the group's key. -/
def GroupsWF (gs : List (JVal × List CyElement)) : Prop :=
  (gs.map Prod.fst).Nodup ∧ ∀ g ∈ gs, ∀ x ∈ g.2, srcKey x = g.1

theorem keys_addToGroups (gs : List (JVal × List CyElement)) (k : JVal) (e : CyElement) :
    (addToGroups gs k e).map Prod.fst =
      if k ∈ gs.map Prod.fst then gs.map Prod.fst else gs.map Prod.fst ++ [k] := by
  induction gs with
  | nil => simp [addToGroups]
  | cons g rest ih =>
    obtain ⟨k2, l⟩ := g
    unfold addToGroups
    by_cases h1 : k2 = k
    · subst h1
      simp
    · have : ¬ (k = k2) := fun h => h1 h.symm
      simp only [if_neg h1, List.map_cons, ih, List.mem_cons, this, false_or]
      by_cases h2 : k ∈ rest.map Prod.fst <;> simp [h2]

theorem mem_addToGroups_inv {gs : List (JVal × List CyElement)} {k : JVal} {e : CyElement}
    (hinv : ∀ g ∈ gs, ∀ x ∈ g.2, srcKey x = g.1) (hk : srcKey e = k) :
    ∀ g ∈ addToGroups gs k e, ∀ x ∈ g.2, srcKey x = g.1 := by
  induction gs with
  | nil =>
    intro g hg x hx
    simp [addToGroups] at hg
    subst hg
    simp at hx
    subst hx
    exact hk
  | cons g2 rest ih =>
    obtain ⟨k2, l⟩ := g2
    intro g hg x hx
    unfold addToGroups at hg
    by_cases h1 : k2 = k
    · rw [if_pos h1] at hg
      rcases List.mem_cons.mp hg with h2 | h2
      · subst h2
        rcases List.mem_append.mp hx with h3 | h3
        · exact hinv (k2, l) (by simp) x h3
        · simp at h3
          subst h3
          exact hk.trans h1.symm
      · exact hinv g (by simp [h2]) x hx
    · rw [if_neg h1] at hg
      rcases List.mem_cons.mp hg with h2 | h2
      · subst h2
        exact hinv (k2, l) (by simp) x hx
      · exact ih (fun g3 hg3 y hy => hinv g3 (by simp [hg3]) y hy) g h2 x hx

theorem groupsWF_addToGroups {gs : List (JVal × List CyElement)} {k : JVal}
    {e : CyElement} (hwf : GroupsWF gs) (hk : srcKey e = k) :
    GroupsWF (addToGroups gs k e) := by
  refine ⟨?_, mem_addToGroups_inv hwf.2 hk⟩
  rw [keys_addToGroups]
  by_cases h : k ∈ gs.map Prod.fst
  · simpa [h] using hwf.1
  · rw [if_neg h]
    rw [List.nodup_append]
    exact ⟨hwf.1, List.nodup_singleton k, by simpa [List.disjoint_singleton] using h⟩

theorem groupsWF_groupBySrc (l : List CyElement) : GroupsWF (groupBySrc l) := by
  unfold groupBySrc
  suffices h : ∀ gs, GroupsWF gs →
      GroupsWF (l.foldl (fun gs e => addToGroups gs (srcKey e) e) gs) by
    exact h [] ⟨List.nodup_nil, by simp⟩
  induction l with
  | nil => intro gs h; simpa using h
  | cons x xs ih =>
    intro gs h
    rw [List.foldl_cons]
    exact ih _ (groupsWF_addToGroups h rfl)

theorem find?_of_mem_keysNodup {gs : List (JVal × List CyElement)}
    {g : JVal × List CyElement} (hg : g ∈ gs) (hnd : (gs.map Prod.fst).Nodup) :
    gs.find? (fun x => decide (x.1 = g.1)) = some g := by
  induction gs with
  | nil => simp at hg
  | cons g2 rest ih =>
    rcases List.mem_cons.mp hg with h1 | h1
    · subst h1
      simp [List.find?]
    · have hne : ¬ (g2.1 = g.1) := by
        intro h2
        exact (List.nodup_cons.mp hnd).1 (h2 ▸ List.mem_map.mpr ⟨g, h1, rfl⟩)
      rw [List.find?_cons_of_neg _ (by simpa using hne)]
      exact ih h1 (List.nodup_cons.mp hnd).2

/-- A group of `bySrc` holds exactly the wrapped edges with its key. -/
theorem group_eq_filter {l : List CyElement} {g : JVal × List CyElement}
    (hg : g ∈ groupBySrc l) :
    g.2 = l.filter (fun x => decide (srcKey x = g.1)) := by
  have hwf := groupsWF_groupBySrc l
  have := find?_of_mem_keysNodup hg hwf.1
  have h2 : groupLookupD (groupBySrc l) g.1 = g.2 := by
    unfold groupLookupD
    rw [this]
  rw [← h2, groupLookupD_groupBySrc]

theorem flatMap_addToGroups (gs : List (JVal × List CyElement)) (k : JVal) (e : CyElement) :
    ((addToGroups gs k e).flatMap Prod.snd).Perm (gs.flatMap Prod.snd ++ [e]) := by
  induction gs with
  | nil => simp [addToGroups]
  | cons g rest ih =>
    obtain ⟨k2, l⟩ := g
    unfold addToGroups
    by_cases h1 : k2 = k
    · rw [if_pos h1]
      simp only [List.flatMap_cons, List.append_assoc]
      exact List.Perm.append_left l (List.perm_append_comm)
    · rw [if_neg h1]
      simp only [List.flatMap_cons, List.append_assoc]
      exact List.Perm.append_left l ih

theorem flatMap_groupBySrc (l : List CyElement) :
    ((groupBySrc l).flatMap Prod.snd).Perm l := by
  unfold groupBySrc
  suffices h : ∀ gs, (((l.foldl (fun gs e => addToGroups gs (srcKey e) e) gs)).flatMap
      Prod.snd).Perm (gs.flatMap Prod.snd ++ l) by
    simpa using h []
  induction l with
  | nil => intro gs; simp
  | cons x xs ih =>
    intro gs
    rw [List.foldl_cons]
    refine (ih _).trans ?_
    refine ((flatMap_addToGroups gs (srcKey x) x).append_right xs).trans ?_
    simp

theorem subperm_append {α : Type} {l1 l2 r1 r2 : List α} (h1 : l1.Subperm l2)
    (h2 : r1.Subperm r2) : (l1 ++ r1).Subperm (l2 ++ r2) := by
  rcases h1 with ⟨w1, hp1, hs1⟩
  rcases h2 with ⟨w2, hp2, hs2⟩
  exact ⟨w1 ++ w2, hp1.append hp2, hs1.append hs2⟩

theorem takeSort_subperm (arr : List CyElement) (k : ℕ) :
    ((sortEdges arr).take k).Subperm arr :=
  (List.take_sublist k (sortEdges arr)).subperm.trans (sortEdges_perm arr).subperm

/-- The reduced edge list is, as a multiset, contained in the wrapped
filtered edge list. -/
theorem reduced_subperm (l : List CyElement) (k : ℕ) :
    ((groupBySrc l).flatMap (fun g => (sortEdges g.2).take k)).Subperm l := by
  refine List.Subperm.trans ?_ (flatMap_groupBySrc l).subperm
  generalize groupBySrc l = gs
  induction gs with
  | nil => simp
  | cons g rest ih =>
    simp only [List.flatMap_cons]
    exact subperm_append (takeSort_subperm g.2 k) ih

/-- Every reduced edge is the wrap of some raw edge that passed the weight
threshold. -/
theorem mem_reduced_edges {g : Graph} {minW : ℚ} {k : ℕ} {ce : CyElement}
    (h : ce ∈ (toCytoscapeElements g minW k).edges) :
    ∃ idx e, e ∈ g.edges ∧ weightFilter minW e = true ∧ ce = mkCyEdge idx e := by
  have h2 : ce ∈ wrapEdges 0 (g.edges.filter (weightFilter minW)) :=
    (reduced_subperm _ k).subset h
  rcases mem_wrapEdges h2 with ⟨idx, e, he, hce⟩
  rcases List.mem_filter.mp he with ⟨he1, he2⟩
  exact ⟨idx, e, he1, he2, hce⟩

/-- Filtering the reduced edges to one source key yields exactly the first
`k` edges of that key's group after the stable descending sort. -/
theorem filter_grouped_take (k : ℕ) (s : JVal) :
    ∀ (gs : List (JVal × List CyElement)), GroupsWF gs →
      ((gs.flatMap (fun g => (sortEdges g.2).take k)).filter
        (fun x => decide (srcKey x = s))) = (sortEdges (groupLookupD gs s)).take k := by
  intro gs
  induction gs with
  | nil => intro _; simp [groupLookupD, sortEdges]
  | cons g rest ih =>
    intro hwf
    have hnd := hwf.1
    have hg2 : ∀ x ∈ g.2, srcKey x = g.1 := hwf.2 g (by simp)
    have htake : ∀ x ∈ (sortEdges g.2).take k, srcKey x = g.1 := fun x hx =>
      hg2 x (mem_sortEdges.mp (List.take_subset k (sortEdges g.2) hx))
    simp only [List.flatMap_cons, List.filter_append]
    by_cases hks : g.1 = s
    · have hfirst : ((sortEdges g.2).take k).filter (fun x => decide (srcKey x = s)) =
          (sortEdges g.2).take k :=
        List.filter_eq_self.mpr (fun x hx => by simp [htake x hx, hks])
      have hrest : ((rest.flatMap (fun g => (sortEdges g.2).take k)).filter
          (fun x => decide (srcKey x = s))) = [] := by
        rw [List.filter_eq_nil_iff]
        intro x hx
        rcases List.mem_flatMap.mp hx with ⟨g2, hg2r, hxg2⟩
        have hx2 : srcKey x = g2.1 := hwf.2 g2 (by simp [hg2r]) x
          (mem_sortEdges.mp (List.take_subset k (sortEdges g2.2) hxg2))
        have hg21 : g2.1 ≠ s := by
          intro hcon
          have : g.1 ∈ rest.map Prod.fst := by
            rw [hks, ← hcon]
            exact List.mem_map.mpr ⟨g2, hg2r, rfl⟩
          exact (List.nodup_cons.mp hnd).1 this
        simp [hx2, hg21]
      rw [hfirst, hrest, List.append_nil]
      have : groupLookupD (g :: rest) s = g.2 := by
        unfold groupLookupD
        rw [List.find?_cons_of_pos _ (by simp [hks])]
      rw [this]
    · have hfirst : ((sortEdges g.2).take k).filter (fun x => decide (srcKey x = s)) = [] := by
        rw [List.filter_eq_nil_iff]
        intro x hx
        simp [htake x hx, hks]
      have : groupLookupD (g :: rest) s = groupLookupD rest s := by
        unfold groupLookupD
        rw [List.find?_cons_of_neg _ (by simp [hks])]
      rw [hfirst, this, List.nil_append]
      exact ih ⟨(List.nodup_cons.mp hnd).2, fun g3 hg3 y hy => hwf.2 g3 (by simp [hg3]) y hy⟩

/-! ### Derived views of the reduction used by the claim theorems -/

/-- The wrapped weight-filtered edge list (the `edges` variable of
`toCytoscapeElements` before degree limiting). -/
def filteredWrapped (g : Graph) (minW : ℚ) : List CyElement :=
  wrapEdges 0 (g.edges.filter (weightFilter minW))

/-- The group of filtered edges whose `data.source` equals `s`, in input
order: exactly the `bySrc` group of the key `s`. -/
def sourceGroup (g : Graph) (minW : ℚ) (s : JVal) : List CyElement :=
  (filteredWrapped g minW).filter (fun ce => decide (srcKey ce = s))

theorem sortKey_ne_nan {g : Graph} {minW : ℚ} :
    ∀ ce ∈ filteredWrapped g minW, sortKey ce ≠ .nan := by
  intro ce h
  rcases mem_wrapEdges h with ⟨idx, e, he, hce⟩
  rcases List.mem_filter.mp he with ⟨_, hf⟩
  subst hce
  rw [sortKey_mkCyEdge]
  unfold weightFilter jsGeQ at hf
  intro hcon
  rw [hcon] at hf
  simp [JNum.le] at hf

theorem subperm_map {α β : Type} (f : α → β) {l1 l2 : List α} (h : l1.Subperm l2) :
    (l1.map f).Subperm (l2.map f) := by
  rcases h with ⟨w, hp, hs⟩
  exact ⟨w.map f, hp.map f, hs.map f⟩

theorem subperm_nodup {α : Type} {l1 l2 : List α} (h : l1.Subperm l2)
    (h2 : l2.Nodup) : l1.Nodup := by
  rcases h with ⟨w, hp, hs⟩
  exact hp.nodup (List.Nodup.sublist hs h2)

/-! ### Concrete inputs used by witnesses and counterexamples.

The rational literals are written with `mkRat` so that the kernel can
evaluate them. -/

/-- An edge from node `A`. -/
def edgeA (d : String) (w : ℚ) : Obj :=
  [("src", .vstr "A"), ("dst", .vstr d), ("weight", .vnum (.fin w))]

/-- The five-edge example of the specification: weights
`[0.9, 0.9, 0.1, 0.5, 0.01]` out of node `A`. -/
def exampleGraph3 : Graph :=
  { nodes := [[("id", .vstr "A")]],
    edges := [edgeA "B1" (mkRat 9 10), edgeA "B2" (mkRat 9 10), edgeA "B3" (mkRat 1 10),
              edgeA "B4" (mkRat 5 10), edgeA "B5" (mkRat 1 100)] }

/-- An edge whose `weight` field is a plain (JSON-expressible) object:
`Number({}) ` is `NaN`, and `{} ?? 0` is `{}` since `{}` is not nullish. -/
def edgeObjWeight : Obj := [("src", .vstr "a"), ("dst", .vstr "b"), ("weight", .vobj [])]

/-- A one-edge graph whose single edge has the object-valued weight. -/
def graph6 : Graph := { nodes := [], edges := [edgeObjWeight] }

/-- An edge record carrying its own `id` field. -/
def edgeOwnId (d : String) : Obj :=
  [("src", .vstr "a"), ("dst", .vstr d), ("weight", .vnum (.fin 1)), ("id", .vstr "x")]

/-- Two surviving edges both carrying the own id `"x"`. -/
def graph7 : Graph := { nodes := [], edges := [edgeOwnId "b", edgeOwnId "c"] }

/-! ### Graph-reduction claims -/

/-- C2: every reduced edge arises from an input edge that passed the
threshold test `(e.weight ?? 0) >= minWeight`; consequently its weight
(missing weight treated as 0) is `>= minWeight`, equivalently never
strictly below it.  The threshold filter is applied to the whole edge list
before the per-source degree limiting, so this holds of every survivor. -/
theorem claim2_threshold_filter (g : Graph) (minW : ℚ) (k : ℕ) (ce : CyElement)
    (h : ce ∈ (toCytoscapeElements g minW k).edges) :
    ∃ idx e, e ∈ g.edges ∧ ce = mkCyEdge idx e ∧
      jsGeQ (weightOrZero e) minW = true ∧
      JNum.lt (weightOrZero e).toNumber (.fin minW) = false := by
  rcases mem_reduced_edges h with ⟨idx, e, he, hf, hce⟩
  refine ⟨idx, e, he, hce, hf, ?_⟩
  unfold weightFilter jsGeQ at hf
  cases hw : (weightOrZero e).toNumber <;> rw [hw] at hf <;>
    simp [JNum.le, JNum.lt] at hf ⊢
  linarith

theorem claim2_witness :
    (mkCyEdge 0 (edgeA "B1" (mkRat 9 10)) ∈
      (toCytoscapeElements exampleGraph3 (mkRat 1 20) 2).edges) ∧
    (∃ idx e, e ∈ exampleGraph3.edges ∧
      mkCyEdge 0 (edgeA "B1" (mkRat 9 10)) = mkCyEdge idx e ∧
      jsGeQ (weightOrZero e) (mkRat 1 20) = true ∧
      JNum.lt (weightOrZero e).toNumber (.fin (mkRat 1 20)) = false) :=
  ⟨by decide, claim2_threshold_filter exampleGraph3 (mkRat 1 20) 2 _ (by decide)⟩

/-- C3: for every source key `s`, the reduced edges with that key are
exactly the first `maxOutDegree` of the key's group sorted by weight
descending; the sort is a permutation of the group, keeps every weight
class in input order (stability), and is pairwise non-ascending; at most
`maxOutDegree` edges survive per key.  On the specification's five-edge
example with `minWeight = 0.05`, `maxOutDegree = 2`, exactly the two
weight-0.9 edges survive, in their original relative order. -/
theorem claim3_per_source_topk (g : Graph) (minW : ℚ) (k : ℕ) (s : JVal) :
    ((toCytoscapeElements g minW k).edges.filter (fun ce => decide (srcKey ce = s)) =
      (sortEdges (sourceGroup g minW s)).take k) ∧
    ((toCytoscapeElements g minW k).edges.filter
      (fun ce => decide (srcKey ce = s))).length ≤ k ∧
    (sortEdges (sourceGroup g minW s)).Perm (sourceGroup g minW s) ∧
    (∀ q, (sortEdges (sourceGroup g minW s)).filter (fun x => decide (sortKey x = q)) =
      (sourceGroup g minW s).filter (fun x => decide (sortKey x = q))) ∧
    (sortEdges (sourceGroup g minW s)).Pairwise DescBy ∧
    (toCytoscapeElements exampleGraph3 (mkRat 1 20) 2).edges =
      [mkCyEdge 0 (edgeA "B1" (mkRat 9 10)), mkCyEdge 1 (edgeA "B2" (mkRat 9 10))] := by
  have hmain : (toCytoscapeElements g minW k).edges.filter
      (fun ce => decide (srcKey ce = s)) = (sortEdges (sourceGroup g minW s)).take k := by
    have h1 : (toCytoscapeElements g minW k).edges =
        (groupBySrc (filteredWrapped g minW)).flatMap
          (fun gp => (sortEdges gp.2).take k) := rfl
    rw [h1, filter_grouped_take k s _ (groupsWF_groupBySrc _), groupLookupD_groupBySrc]
    rfl
  refine ⟨hmain, ?_, sortEdges_perm _, fun q => sortEdges_stable _ q, ?_, by decide⟩
  · rw [hmain]
    exact List.length_take_le k _
  · exact sortEdges_pairwise (fun x hx =>
      sortKey_ne_nan x (List.mem_filter.mp hx).1)

/-- C4: reduction never drops a node — the output node list is the input
node list, elementwise wrapped as `{ data: { id, ...n } }` — and every
output edge is the wrap of some input edge (the edge set corresponds to a
subset of the input edge set). -/
theorem claim4_nodes_preserved (g : Graph) (minW : ℚ) (k : ℕ) :
    ((toCytoscapeElements g minW k).nodes = g.nodes.map mkCyNode) ∧
    ((toCytoscapeElements g minW k).nodes.length = g.nodes.length) ∧
    (∀ n ∈ g.nodes, mkCyNode n ∈ (toCytoscapeElements g minW k).nodes) ∧
    (∀ ce ∈ (toCytoscapeElements g minW k).edges,
      ∃ idx e, e ∈ g.edges ∧ ce = mkCyEdge idx e) := by
  refine ⟨rfl, by simp [toCytoscapeElements], ?_, ?_⟩
  · intro n hn
    exact List.mem_map.mpr ⟨n, hn, rfl⟩
  · intro ce hce
    rcases mem_reduced_edges hce with ⟨idx, e, he, _, hid⟩
    exact ⟨idx, e, he, hid⟩

/-- C6 counterexample: the claim says a non-numeric weight is coerced to 0
and the edge then passes the threshold exactly when `0 >= minWeight`.  With
`minWeight = 0` and the (JSON-expressible) weight `{}`, `0 >= 0` holds so
the claim predicts the edge is kept, but `{} ?? 0` is `{}` (an object is
not nullish), `{} >= 0` compares `NaN` and is false, and the reduction
discards the edge. -/
theorem claim6_counterexample :
    (toCytoscapeElements graph6 0 5).edges = [] ∧
    ((0 : ℚ) ≥ 0) ∧
    (objGet edgeObjWeight "weight").nullish = false := by
  exact ⟨by decide, le_refl 0, by decide⟩

/-- C6 (amended): the reduction never raises on a malformed weight, but only
a missing or `null` weight is coerced to 0 (and its edge then passes the
threshold exactly when `minWeight <= 0`); a present weight that coerces to
`NaN` (for example an object or a non-numeric string) makes the comparison
false, so such an edge is always discarded, whatever `minWeight` is. -/
theorem claim6_amended (g : Graph) (minW : ℚ) (e : Obj) :
    ((objGet e "weight").nullish = true →
      weightFilter minW e = decide (minW ≤ 0)) ∧
    ((objGet e "weight").nullish = false → (objGet e "weight").toNumber = .nan →
      weightFilter minW e = false) ∧
    (weightFilter minW e = false → e ∉ g.edges.filter (weightFilter minW)) := by
  refine ⟨?_, ?_, ?_⟩
  · intro h
    unfold weightFilter weightOrZero jsGeQ
    rw [h]
    simp [JVal.toNumber, JNum.le]
  · intro h1 h2
    unfold weightFilter weightOrZero jsGeQ
    rw [h1]
    simp only [Bool.false_eq_true, if_false, h2]
    rfl
  · intro h1 h2
    exact absurd (List.mem_filter.mp h2).2 (by simp [h1])

theorem claim6_witness :
    ((objGet edgeObjWeight "weight").nullish = false ∧
      (objGet edgeObjWeight "weight").toNumber = .nan ∧
      weightFilter 0 edgeObjWeight = false) ∧
    ((objGet ([("src", JVal.vstr "a"), ("dst", JVal.vstr "b")] : Obj) "weight").nullish = true ∧
      weightFilter 0 ([("src", JVal.vstr "a"), ("dst", JVal.vstr "b")] : Obj) = decide ((0 : ℚ) ≤ 0)) :=
  ⟨⟨by decide, by decide,
      (claim6_amended graph6 0 edgeObjWeight).2.1 (by decide) (by decide)⟩,
    ⟨by decide, (claim6_amended graph6 0 _).1 (by decide)⟩⟩

/-- C7 counterexample: output edge ids are not unique for every input —an
input record carrying its own `id` field overrides the generated id
(the spread comes last), so two surviving records with the same own id
yield duplicate output ids. -/
theorem claim7_counterexample :
    ((toCytoscapeElements graph7 0 5).edges.map (fun ce => objGet ce.data "id")) =
      [.vstr "x", .vstr "x"] ∧
    ¬ ((toCytoscapeElements graph7 0 5).edges.map
        (fun ce => objGet ce.data "id")).Nodup ∧
    (toCytoscapeElements graph7 0 5).edges.length = 2 := by
  exact ⟨by decide, by decide, by decide⟩

/-- C7 (amended): when no input edge record carries an own `id` field, the
output ids are the generated `"e" + idx` with `idx` the edge's position in
the filtered sequence — drawn without repetition from
`"e0" ... "e(n-1)"` for `n` the filtered length — hence pairwise distinct;
and they are stable: `toCytoscapeElements` is a pure function of its
arguments, so the same input yields the same ids. -/
theorem claim7_amended (g : Graph) (minW : ℚ) (k : ℕ)
    (h : ∀ e ∈ g.edges, objHasKey e "id" = false) :
    (((toCytoscapeElements g minW k).edges.map (fun ce => objGet ce.data "id")).Subperm
      ((List.range' 0 (g.edges.filter (weightFilter minW)).length).map
        (fun j => JVal.vstr ("e" ++ natRepr j)))) ∧
    ((toCytoscapeElements g minW k).edges.map
      (fun ce => objGet ce.data "id")).Nodup := by
  have hids : (filteredWrapped g minW).map (fun ce => objGet ce.data "id") =
      (List.range' 0 (g.edges.filter (weightFilter minW)).length).map
        (fun j => JVal.vstr ("e" ++ natRepr j)) :=
    wrapEdges_map_id (fun e he => h e (List.mem_filter.mp he).1) 0
  have hsub : ((toCytoscapeElements g minW k).edges.map
      (fun ce => objGet ce.data "id")).Subperm
      ((filteredWrapped g minW).map (fun ce => objGet ce.data "id")) :=
    subperm_map _ (reduced_subperm (filteredWrapped g minW) k)
  rw [hids] at hsub
  have hinj : Function.Injective (fun j : ℕ => JVal.vstr ("e" ++ natRepr j)) := by
    intro a b hab
    injection hab with h2
    exact genId_injective h2
  exact ⟨hsub, subperm_nodup hsub (List.Nodup.map hinj (List.nodup_range' 0 _))⟩

theorem claim7_witness :
    (∀ e ∈ exampleGraph3.edges, objHasKey e "id" = false) ∧
    ((((toCytoscapeElements exampleGraph3 (mkRat 1 20) 2).edges.map
        (fun ce => objGet ce.data "id")).Subperm
      ((List.range' 0 (exampleGraph3.edges.filter
        (weightFilter (mkRat 1 20))).length).map
        (fun j => JVal.vstr ("e" ++ natRepr j)))) ∧
    ((toCytoscapeElements exampleGraph3 (mkRat 1 20) 2).edges.map
      (fun ce => objGet ce.data "id")).Nodup) :=
  ⟨by decide, claim7_amended exampleGraph3 (mkRat 1 20) 2 (by decide)⟩

/-- C10: the input record is spread into the output `data` after the
generated `id`/`source`/`target` fields, so every field of a surviving
input record (a real JavaScript object, hence with duplicate-free keys)
appears with its original value in the output data; in particular an own
`id`, `source` or `target` field replaces the generated one. -/
theorem claim10_spread_preserves_fields (g : Graph) (minW : ℚ) (k : ℕ) (ce : CyElement)
    (h : ce ∈ (toCytoscapeElements g minW k).edges) :
    ∃ idx e, e ∈ g.edges ∧ ce = mkCyEdge idx e ∧
      ((e.map Prod.fst).Nodup → ∀ kv ∈ e, objGet ce.data kv.1 = kv.2) := by
  rcases mem_reduced_edges h with ⟨idx, e, he, _, hce⟩
  refine ⟨idx, e, he, hce, fun hnd kv hkv => ?_⟩
  rw [hce]
  show objGet (objExtend _ e) kv.1 = kv.2
  exact objGet_objExtend_of_mem _ hnd (by simpa using hkv)

theorem claim10_witness :
    (mkCyEdge 0 (edgeOwnId "b") ∈ (toCytoscapeElements graph7 0 5).edges) ∧
    (∃ idx e, e ∈ graph7.edges ∧ mkCyEdge 0 (edgeOwnId "b") = mkCyEdge idx e ∧
      ((e.map Prod.fst).Nodup → ∀ kv ∈ e,
        objGet (mkCyEdge 0 (edgeOwnId "b")).data kv.1 = kv.2)) :=
  ⟨by decide, claim10_spread_preserves_fields graph7 0 5 _ (by decide)⟩

/-! ### Lemmas about interval normalisation -/

theorem jsMin_fin_fin (a b : ℚ) : jsMin (.fin a) (.fin b) = .fin (min a b) := by
  unfold jsMin JNum.le
  by_cases h : a ≤ b
  · simp [h, min_eq_left h]
  · simp [h, min_eq_right (le_of_lt (lt_of_not_le h))]

theorem jsMax_fin_fin (a b : ℚ) : jsMax (.fin a) (.fin b) = .fin (max a b) := by
  unfold jsMax JNum.le
  by_cases h : a ≤ b
  · simp [h, max_eq_right h]
  · simp [h, max_eq_left (le_of_lt (lt_of_not_le h))]

theorem clampNum_nan (L : ℕ) : clampNum L .nan = .nan := by
  simp [clampNum, jsMin, jsMax]

theorem clampNum_fin (L : ℕ) (q : ℚ) :
    clampNum L (.fin q) = .fin (max 0 (min ((L : ℚ) - 1) q)) := by
  unfold clampNum
  rw [jsMin_fin_fin, jsMax_fin_fin]

theorem clampNum_pinf (L : ℕ) : clampNum L .pinf = .fin (max 0 ((L : ℚ) - 1)) := by
  unfold clampNum
  have h1 : jsMin (.fin ((L : ℚ) - 1)) .pinf = .fin ((L : ℚ) - 1) := by
    simp [jsMin, JNum.le]
  rw [h1, jsMax_fin_fin]

theorem clampNum_ninf (L : ℕ) : clampNum L .ninf = .fin 0 := by
  unfold clampNum
  have h1 : jsMin (.fin ((L : ℚ) - 1)) .ninf = .ninf := by
    simp [jsMin, JNum.le]
  rw [h1]
  simp [jsMax, JNum.le]

theorem clampNum_of_ne_nan {x : JNum} (L : ℕ) (h : x ≠ .nan) :
    ∃ q : ℚ, clampNum L x = .fin q := by
  cases x with
  | fin q => exact ⟨_, clampNum_fin L q⟩
  | pinf => exact ⟨_, clampNum_pinf L⟩
  | ninf => exact ⟨_, clampNum_ninf L⟩
  | nan => exact absurd rfl h

theorem clampNum_bounds {L : ℕ} {x : JNum} {a : ℚ} (h : clampNum L x = .fin a) :
    0 ≤ a ∧ a ≤ max ((L : ℚ) - 1) 0 := by
  cases x with
  | fin q =>
    rw [clampNum_fin] at h
    injection h with h
    subst h
    exact ⟨le_max_left _ _,
      max_le (le_max_right _ _) (le_trans (min_le_left _ _) (le_max_left _ _))⟩
  | pinf =>
    rw [clampNum_pinf] at h
    injection h with h
    subst h
    exact ⟨le_max_left _ _, by rw [max_comm]⟩
  | ninf =>
    rw [clampNum_ninf] at h
    injection h with h
    subst h
    exact ⟨le_refl 0, le_max_right _ _⟩
  | nan => rw [clampNum_nan] at h; exact absurd h (by simp)

theorem clampNum_fixed {L : ℕ} {a : ℚ} (h0 : 0 ≤ a) (h1 : a ≤ max ((L : ℚ) - 1) 0) :
    clampNum L (.fin a) = .fin a := by
  rw [clampNum_fin]
  rcases le_or_lt ((L : ℚ) - 1) 0 with hc | hc
  · have ha : a = 0 := le_antisymm (by rwa [max_eq_right hc] at h1) h0
    subst ha
    rw [min_eq_left hc, max_eq_left hc]
  · have h1' : a ≤ (L : ℚ) - 1 := by rwa [max_eq_left hc.le] at h1
    rw [min_eq_right h1', max_eq_right h0]

/-- The loop of `clampSegs` is the per-entry normalisation mapped over the
entries, dropping the rejected ones. -/
theorem clampSegs_eq_filterMap (segs : List JVal) (L : ℕ) :
    clampSegs segs L = segs.filterMap (normEntry L) := by
  induction segs with
  | nil => simp [clampSegs]
  | cons s rest ih =>
    cases s with
    | varr elts =>
      match elts with
      | [] => simpa [clampSegs, normEntry, List.filterMap_cons] using ih
      | [x] => simpa [clampSegs, normEntry, List.filterMap_cons] using ih
      | x :: y :: tl =>
        show (match clampNum L x.toNumber, clampNum L y.toNumber with
          | .fin a, .fin b => (if b < a then (b, a) else (a, b)) :: clampSegs rest L
          | _, _ => clampSegs rest L) = _
        rw [List.filterMap_cons]
        cases h1 : clampNum L x.toNumber <;> cases h2 : clampNum L y.toNumber <;>
          simp [normEntry, h1, h2, ih]
    | vnum x => simpa [clampSegs, normEntry, List.filterMap_cons] using ih
    | vstr s2 => simpa [clampSegs, normEntry, List.filterMap_cons] using ih
    | vbool b => simpa [clampSegs, normEntry, List.filterMap_cons] using ih
    | vnull => simpa [clampSegs, normEntry, List.filterMap_cons] using ih
    | vundefined => simpa [clampSegs, normEntry, List.filterMap_cons] using ih
    | vobj fs => simpa [clampSegs, normEntry, List.filterMap_cons] using ih

/-- Every surviving entry is an ordered pair within the clamping range
(`[0, L-1]` for `L ≥ 1`, the degenerate `[0, 0]` for `L = 0`). -/
theorem clampSegs_range (segs : List JVal) (L : ℕ) :
    ∀ p ∈ clampSegs segs L, 0 ≤ p.1 ∧ p.1 ≤ p.2 ∧ p.2 ≤ max ((L : ℚ) - 1) 0 := by
  rw [clampSegs_eq_filterMap]
  intro p hp
  rcases List.mem_filterMap.mp hp with ⟨s, _, hs⟩
  unfold normEntry at hs
  rcases s with _ | _ | _ | _ | _ | elts | _ <;> try simp at hs
  rcases elts with _ | ⟨x, _ | ⟨y, tl⟩⟩ <;> try simp at hs
  rcases hx : clampNum L x.toNumber with qa | _ | _ | _ <;> rw [hx] at hs <;> try simp at hs
  rcases hy : clampNum L y.toNumber with qb | _ | _ | _ <;> rw [hy] at hs <;> try simp at hs
  have hb1 := clampNum_bounds hx
  have hb2 := clampNum_bounds hy
  by_cases hba : qb < qa
  · rw [if_pos hba] at hs
    rw [← hs]
    exact ⟨hb2.1, le_of_lt hba, hb1.2⟩
  · rw [if_neg hba] at hs
    rw [← hs]
    exact ⟨hb1.1, le_of_not_lt hba, hb2.2⟩

/-! ### Interval-normalisation claims -/

/-- A malformed segment list: an entry with a `+Infinity` endpoint, and an
entry that is a three-element array. -/
def badSegs : List JVal :=
  [.varr [.anum .pinf, .anum (.fin 2)],
   .varr [.anum (.fin 1), .anum (.fin 2), .anum (.fin 3)]]

/-- C5 counterexample: the claim says an entry with a non-finite endpoint
(here `[Infinity, 2]`) is dropped and an entry that is not a two-element
pair (here `[1, 2, 3]`) is dropped; at `L = 5` the code instead keeps both:
the infinite endpoint is clamped to `L - 1 = 4` (and the entry swapped to
`[2, 4]`), and the three-element entry is processed from its first two
elements. -/
theorem normEntry_eval {L : ℕ} {x y : JAtom} {tl : List JAtom} {qa qb : ℚ}
    (hx : clampNum L x.toNumber = .fin qa) (hy : clampNum L y.toNumber = .fin qb) :
    normEntry L (.varr (x :: y :: tl)) = some (if qb < qa then (qb, qa) else (qa, qb)) := by
  show (match clampNum L x.toNumber, clampNum L y.toNumber with
    | JNum.fin a, JNum.fin b => some (if b < a then (b, a) else (a, b))
    | _, _ => none) = _
  rw [hx, hy]

theorem claim5_counterexample :
    clampSegs badSegs 5 = [(2, 4), (1, 2)] ∧ clampSegs badSegs 5 ≠ [] := by
  have h1 : clampNum 5 (JAtom.toNumber (.anum .pinf)) = .fin 4 := by
    show clampNum 5 .pinf = _
    rw [clampNum_pinf]
    norm_num
  have h2 : clampNum 5 (JAtom.toNumber (.anum (.fin 2))) = .fin 2 := by
    show clampNum 5 (.fin 2) = _
    rw [clampNum_fin]
    norm_num [min_def, max_def]
  have h3 : clampNum 5 (JAtom.toNumber (.anum (.fin 1))) = .fin 1 := by
    show clampNum 5 (.fin 1) = _
    rw [clampNum_fin]
    norm_num [min_def, max_def]
  have e1 : normEntry 5 (.varr [.anum .pinf, .anum (.fin 2)]) = some (2, 4) := by
    rw [normEntry_eval h1 h2, if_pos (by norm_num)]
  have e2 : normEntry 5 (.varr [.anum (.fin 1), .anum (.fin 2), .anum (.fin 3)]) =
      some (1, 2) := by
    rw [normEntry_eval h3 h2, if_neg (by norm_num)]
  have hmain : clampSegs badSegs 5 = [(2, 4), (1, 2)] := by
    rw [clampSegs_eq_filterMap]
    show List.filterMap (normEntry 5) badSegs = _
    unfold badSegs
    rw [List.filterMap_cons, e1, List.filterMap_cons, e2]
    rfl
  exact ⟨hmain, by rw [hmain]; simp⟩

/-- C5 (amended): interval normalisation drops an entry iff it is not an
array of length at least 2 or one of its first two coerced endpoints is
`NaN` after clamping (only `NaN` survives clamping as non-finite: an
infinite endpoint is clamped into range, not dropped); every surviving
entry is an ordered pair with endpoints in `[0, L-1]` (both `0` when
`L = 0`), endpoints swapped when out of order; dropping is per-entry
(`filterMap`) and never fatal. -/
theorem claim5_amended (segs : List JVal) (L : ℕ) :
    (clampSegs segs L = segs.filterMap (normEntry L)) ∧
    (∀ p ∈ clampSegs segs L, 0 ≤ p.1 ∧ p.1 ≤ p.2 ∧ p.2 ≤ max ((L : ℚ) - 1) 0) ∧
    (∀ (x y : JAtom) (rest : List JAtom),
      x.toNumber ≠ .nan → y.toNumber ≠ .nan →
      (normEntry L (.varr (x :: y :: rest))).isSome = true) ∧
    (∀ (x y : JAtom) (rest : List JAtom),
      clampNum L x.toNumber = .nan ∨ clampNum L y.toNumber = .nan →
      normEntry L (.varr (x :: y :: rest)) = none) ∧
    (∀ s : JVal, (∀ elts, s = .varr elts → elts.length < 2) → normEntry L s = none) := by
  refine ⟨clampSegs_eq_filterMap segs L, clampSegs_range segs L, ?_, ?_, ?_⟩
  · intro x y rest hx hy
    rcases clampNum_of_ne_nan L hx with ⟨qa, hqa⟩
    rcases clampNum_of_ne_nan L hy with ⟨qb, hqb⟩
    simp [normEntry, hqa, hqb]
  · intro x y rest h
    rcases h with h | h
    · simp [normEntry, h]
    · rcases hx : clampNum L x.toNumber with qa | _ | _ | _ <;> simp [normEntry, hx, h]
  · intro s hs
    unfold normEntry
    rcases s with _ | _ | _ | _ | _ | elts | _ <;> try rfl
    rcases elts with _ | ⟨x, _ | ⟨y, tl⟩⟩ <;> try rfl
    have := hs (x :: y :: tl) rfl
    simp at this
    omega

theorem claim5_witness :
    (clampSegs badSegs 5 = badSegs.filterMap (normEntry 5)) ∧
    (∀ p ∈ clampSegs badSegs 5, 0 ≤ p.1 ∧ p.1 ≤ p.2 ∧ p.2 ≤ max ((5 : ℚ) - 1) 0) ∧
    (∀ (x y : JAtom) (rest : List JAtom),
      x.toNumber ≠ .nan → y.toNumber ≠ .nan →
      (normEntry 5 (.varr (x :: y :: rest))).isSome = true) ∧
    (∀ (x y : JAtom) (rest : List JAtom),
      clampNum 5 x.toNumber = .nan ∨ clampNum 5 y.toNumber = .nan →
      normEntry 5 (.varr (x :: y :: rest)) = none) ∧
    (∀ s : JVal, (∀ elts, s = .varr elts → elts.length < 2) → normEntry 5 s = none) :=
  claim5_amended badSegs 5

/-- C9: normalising an already-normalised interval list — entries that are
two-element arrays of finite numbers `[a, b]` with `0 ≤ a ≤ b ≤ L - 1` —
returns the same list of pairs; and normalisation is idempotent on every
input: re-normalising the (re-injected) output of `clampSegs` changes
nothing. -/
theorem claim9_normalize_identity (segs : List JVal) (L : ℕ) (ps : List (ℚ × ℚ))
    (hsegs : segs = ps.map pairJVal)
    (hp : ∀ p ∈ ps, 0 ≤ p.1 ∧ p.1 ≤ p.2 ∧ p.2 ≤ (L : ℚ) - 1) :
    clampSegs segs L = ps ∧
    (∀ (segs2 : List JVal) (L2 : ℕ),
      clampSegs ((clampSegs segs2 L2).map pairJVal) L2 = clampSegs segs2 L2) := by
  constructor
  · subst hsegs
    induction ps with
    | nil => rfl
    | cons p rest ih =>
      have hpp := hp p (by simp)
      have hfix1 : clampNum L (.fin p.1) = .fin p.1 :=
        clampNum_fixed hpp.1 (le_trans (le_trans hpp.2.1 hpp.2.2) (le_max_left _ _))
      have hfix2 : clampNum L (.fin p.2) = .fin p.2 :=
        clampNum_fixed (le_trans hpp.1 hpp.2.1) (le_trans hpp.2.2 (le_max_left _ _))
      show (match clampNum L (JAtom.toNumber (.anum (.fin p.1))),
          clampNum L (JAtom.toNumber (.anum (.fin p.2))) with
        | .fin a, .fin b => (if b < a then (b, a) else (a, b)) :: clampSegs _ L
        | _, _ => clampSegs _ L) = p :: rest
      simp only [JAtom.toNumber, hfix1, hfix2]
      rw [if_neg (not_lt_of_le hpp.2.1)]
      rw [ih (fun p2 h2 => hp p2 (by simp [h2]))]
  · intro segs2 L2
    have hr := clampSegs_range segs2 L2
    generalize hout : clampSegs segs2 L2 = out at hr
    clear hout
    induction out with
    | nil => rfl
    | cons p rest ih =>
      have hpp := hr p (by simp)
      have hfix1 : clampNum L2 (.fin p.1) = .fin p.1 := clampNum_fixed hpp.1
        (le_trans (le_trans hpp.2.1 hpp.2.2) (le_refl _))
      have hfix2 : clampNum L2 (.fin p.2) = .fin p.2 := clampNum_fixed
        (le_trans hpp.1 hpp.2.1) hpp.2.2
      show (match clampNum L2 (JAtom.toNumber (.anum (.fin p.1))),
          clampNum L2 (JAtom.toNumber (.anum (.fin p.2))) with
        | .fin a, .fin b => (if b < a then (b, a) else (a, b)) :: clampSegs _ L2
        | _, _ => clampSegs _ L2) = p :: rest
      simp only [JAtom.toNumber, hfix1, hfix2]
      rw [if_neg (not_lt_of_le hpp.2.1)]
      rw [ih (fun p2 h2 => hr p2 (by simp [h2]))]

theorem claim9_witness :
    ([JVal.varr [.anum (.fin 1), .anum (.fin 3)], .varr [.anum (.fin 2), .anum (.fin 2)]] =
      ([((1 : ℚ), (3 : ℚ)), (2, 2)]).map pairJVal) ∧
    (∀ p ∈ [((1 : ℚ), (3 : ℚ)), (2, 2)], 0 ≤ p.1 ∧ p.1 ≤ p.2 ∧ p.2 ≤ (5 : ℚ) - 1) ∧
    (clampSegs [JVal.varr [.anum (.fin 1), .anum (.fin 3)],
        .varr [.anum (.fin 2), .anum (.fin 2)]] 5 = [((1 : ℚ), (3 : ℚ)), (2, 2)] ∧
      (∀ (segs2 : List JVal) (L2 : ℕ),
        clampSegs ((clampSegs segs2 L2).map pairJVal) L2 = clampSegs segs2 L2)) :=
  ⟨by decide, by norm_num,
    claim9_normalize_identity _ 5 [((1 : ℚ), (3 : ℚ)), (2, 2)] (by decide) (by norm_num)⟩

/-! ### Lemmas about the line-building loop -/

theorem buildLinesAux_flat {ex : SeqExample} {lineLen : ℕ} (hl : 0 < lineLen) :
    ∀ (fuel start : ℕ), ex.sequence.length - start < fuel →
      (buildLinesAux ex lineLen fuel start).flatMap SeqLine.cells =
        (List.range' start (ex.sequence.length - start)).map (mkCell ex) := by
  intro fuel
  induction fuel with
  | zero => intro start h; omega
  | succ fuel ih =>
    intro start h
    unfold buildLinesAux
    by_cases hc : start < ex.sequence.length
    · rw [if_pos ⟨hl, hc⟩]
      simp only [List.flatMap_cons]
      rw [ih (start + lineLen) (by omega), ← List.map_append]
      congr 1
      by_cases h2 : start + lineLen ≤ ex.sequence.length
      · rw [min_eq_right h2]
        have e1 : start + lineLen - start = lineLen := by omega
        rw [e1]
        have e2 := List.range'_append start lineLen
          (ex.sequence.length - (start + lineLen)) 1
        simp only [one_mul] at e2
        rw [e2]
        congr 1
        omega
      · rw [min_eq_left (by omega)]
        have e1 : ex.sequence.length - (start + lineLen) = 0 := by omega
        rw [e1]
        simp
    · rw [if_neg (fun hand => hc hand.2)]
      have e1 : ex.sequence.length - start = 0 := by omega
      rw [e1]
      simp

theorem buildLinesAux_length {ex : SeqExample} {lineLen : ℕ} (hl : 0 < lineLen) :
    ∀ (fuel start : ℕ), ex.sequence.length - start < fuel →
      (buildLinesAux ex lineLen fuel start).length =
        (ex.sequence.length - start + lineLen - 1) / lineLen := by
  intro fuel
  induction fuel with
  | zero => intro start h; omega
  | succ fuel ih =>
    intro start h
    unfold buildLinesAux
    by_cases hc : start < ex.sequence.length
    · rw [if_pos ⟨hl, hc⟩]
      simp only [List.length_cons]
      rw [ih (start + lineLen) (by omega)]
      have hrw : ex.sequence.length - start + lineLen - 1 =
          (ex.sequence.length - start - 1) + lineLen := by omega
      rw [hrw, Nat.add_div_right _ hl]
      congr 1
      by_cases h2 : start + lineLen ≤ ex.sequence.length
      · congr 1
        omega
      · have e1 : ex.sequence.length - (start + lineLen) = 0 := by omega
        rw [e1]
        rw [Nat.div_eq_of_lt (by omega), Nat.div_eq_of_lt (by omega)]
    · rw [if_neg (fun hand => hc hand.2)]
      have e1 : ex.sequence.length - start = 0 := by omega
      rw [e1, Nat.div_eq_of_lt (by omega)]
      rfl

theorem buildLinesAux_get {ex : SeqExample} {lineLen : ℕ} (hl : 0 < lineLen) :
    ∀ (fuel start j : ℕ), ex.sequence.length - start < fuel →
      (hj : j < (buildLinesAux ex lineLen fuel start).length) →
      (buildLinesAux ex lineLen fuel start).get ⟨j, hj⟩ =
        { leftIdx := start + j * lineLen + 1,
          rightIdx := min ex.sequence.length (start + j * lineLen + lineLen),
          cells := (List.range' (start + j * lineLen)
            (min ex.sequence.length (start + j * lineLen + lineLen) -
              (start + j * lineLen))).map (mkCell ex) } := by
  intro fuel
  induction fuel with
  | zero => intro start j h; omega
  | succ fuel ih =>
    intro start j h hj
    by_cases hc : start < ex.sequence.length
    · have hthis : (buildLinesAux ex lineLen (fuel + 1) start) =
          { leftIdx := start + 1,
            rightIdx := min ex.sequence.length (start + lineLen),
            cells := (List.range' start
              (min ex.sequence.length (start + lineLen) - start)).map (mkCell ex) }
            :: buildLinesAux ex lineLen fuel (start + lineLen) := by
        show (if 0 < lineLen ∧ start < ex.sequence.length then
            { leftIdx := start + 1,
              rightIdx := min ex.sequence.length (start + lineLen),
              cells := (List.range' start
                (min ex.sequence.length (start + lineLen) - start)).map (mkCell ex) }
              :: buildLinesAux ex lineLen fuel (start + lineLen)
          else []) = _
        rw [if_pos ⟨hl, hc⟩]
      cases j with
      | zero =>
        rw [List.get_of_eq hthis]
        simp
      | succ j =>
        have hj2 : j < (buildLinesAux ex lineLen fuel (start + lineLen)).length := by
          have h2 := hj
          rw [hthis] at h2
          simpa using h2
        have hget : (buildLinesAux ex lineLen (fuel + 1) start).get ⟨j + 1, hj⟩ =
            (buildLinesAux ex lineLen fuel (start + lineLen)).get ⟨j, hj2⟩ := by
          rw [List.get_of_eq hthis]
          simp [List.get]
        rw [hget, ih (start + lineLen) j (by omega) hj2]
        have e : start + lineLen + j * lineLen = start + (j + 1) * lineLen := by ring
        rw [e]
    · exfalso
      have hnil : (buildLinesAux ex lineLen (fuel + 1) start) = [] := by
        show (if 0 < lineLen ∧ start < ex.sequence.length then
            { leftIdx := start + 1,
              rightIdx := min ex.sequence.length (start + lineLen),
              cells := (List.range' start
                (min ex.sequence.length (start + lineLen) - start)).map (mkCell ex) }
              :: buildLinesAux ex lineLen fuel (start + lineLen)
          else []) = []
        rw [if_neg (fun hand => hc hand.2)]
      rw [hnil] at hj
      simp at hj

/-! ### Sequence-annotation claims -/

/-- A small concrete example: sequence `"ABCDE"`, behavior interval
`[0, 1]`, feature interval `[1, 3]`, one scored position `4`. -/
def exampleSeq : SeqExample :=
  { sequence := ['A', 'B', 'C', 'D', 'E'],
    behavior_segments := [.varr [.anum (.fin 0), .anum (.fin 1)]],
    feature_segments := [.varr [.anum (.fin 1), .anum (.fin 3)]],
    top_positions := [.vobj [("pos", .anum (.fin 4)), ("act", .anum (.fin 1))]] }

/-- C8: for a positive `lineLength` the annotator emits exactly
`ceil(L / lineLength)` lines; the `j`-th line displays the 1-indexed
inclusive bounds `j*lineLength + 1` and `min L ((j+1)*lineLength)` of its
chunk and carries the cells of exactly those positions; the chunks
concatenate to `0..L` in order; and `L = 0` yields zero lines (a
well-formed empty result, not an error). -/
theorem claim8_line_wrapping (ex : SeqExample) (lineLen : ℕ) (h : 0 < lineLen) :
    ((renderExampleHTML ex lineLen).length =
      (ex.sequence.length + lineLen - 1) / lineLen) ∧
    (∀ j, (hj : j < (renderExampleHTML ex lineLen).length) →
      ((renderExampleHTML ex lineLen).get ⟨j, hj⟩).leftIdx = j * lineLen + 1 ∧
      ((renderExampleHTML ex lineLen).get ⟨j, hj⟩).rightIdx =
        min ex.sequence.length (j * lineLen + lineLen) ∧
      ((renderExampleHTML ex lineLen).get ⟨j, hj⟩).cells.map Cell.pos =
        List.range' (j * lineLen)
          (min ex.sequence.length (j * lineLen + lineLen) - j * lineLen)) ∧
    (((renderExampleHTML ex lineLen).flatMap SeqLine.cells).map Cell.pos =
      List.range ex.sequence.length) ∧
    (ex.sequence.length = 0 → renderExampleHTML ex lineLen = []) := by
  refine ⟨?_, ?_, ?_, ?_⟩
  · unfold renderExampleHTML
    rw [buildLinesAux_length h (ex.sequence.length + 1) 0 (by omega)]
    simp
  · intro j hj
    unfold renderExampleHTML at hj ⊢
    rw [buildLinesAux_get h (ex.sequence.length + 1) 0 j (by omega) hj]
    refine ⟨by simp, by simp, ?_⟩
    simp only [List.map_map, Nat.zero_add]
    have : (Cell.pos ∘ mkCell ex) = id := by
      funext i
      rfl
    rw [this, List.map_id]
  · unfold renderExampleHTML
    rw [buildLinesAux_flat h (ex.sequence.length + 1) 0 (by omega)]
    simp only [Nat.sub_zero, List.map_map]
    have : (Cell.pos ∘ mkCell ex) = id := by
      funext i
      rfl
    rw [this, List.map_id, List.range_eq_range']
  · intro h0
    unfold renderExampleHTML buildLinesAux
    rw [h0]
    simp

theorem claim8_witness :
    (0 < 2) ∧
    (((renderExampleHTML exampleSeq 2).length = (exampleSeq.sequence.length + 2 - 1) / 2) ∧
    (∀ j, (hj : j < (renderExampleHTML exampleSeq 2).length) →
      ((renderExampleHTML exampleSeq 2).get ⟨j, hj⟩).leftIdx = j * 2 + 1 ∧
      ((renderExampleHTML exampleSeq 2).get ⟨j, hj⟩).rightIdx =
        min exampleSeq.sequence.length (j * 2 + 2) ∧
      ((renderExampleHTML exampleSeq 2).get ⟨j, hj⟩).cells.map Cell.pos =
        List.range' (j * 2) (min exampleSeq.sequence.length (j * 2 + 2) - j * 2)) ∧
    (((renderExampleHTML exampleSeq 2).flatMap SeqLine.cells).map Cell.pos =
      List.range exampleSeq.sequence.length) ∧
    (exampleSeq.sequence.length = 0 → renderExampleHTML exampleSeq 2 = [])) :=
  ⟨by decide, claim8_line_wrapping exampleSeq 2 (by decide)⟩

/-- C1: the cell rendered at position `p` (position `p` of the concatenated
lines) has category `both` iff both masks cover `p`, `beh` (the primary,
behavior category) iff only the behavior mask covers it, `feat` (the
secondary, feature-mask category) iff only the feature mask covers it, and
`plain` otherwise; orthogonally it is flagged `top` (scored) iff `p` is a
key of the sanitised position-to-score map, whatever the category. -/
theorem claim1_classification (ex : SeqExample) (lineLen p : ℕ)
    (hl : 0 < lineLen) (hp : p < ex.sequence.length) :
    ∃ c : Cell, ((renderExampleHTML ex lineLen).flatMap SeqLine.cells)[p]? = some c ∧
      c = mkCell ex p ∧ c.pos = p ∧
      (c.category = .both ↔ (exBehMask ex p = true ∧ exFeatMask ex p = true)) ∧
      (c.category = .beh ↔ (exBehMask ex p = true ∧ exFeatMask ex p = false)) ∧
      (c.category = .feat ↔ (exBehMask ex p = false ∧ exFeatMask ex p = true)) ∧
      (c.category = .plain ↔ (exBehMask ex p = false ∧ exFeatMask ex p = false)) ∧
      c.isTop = (mapGet (topPositionsToMap ex.top_positions) (p : ℚ)).isSome ∧
      c.act = mapGet (topPositionsToMap ex.top_positions) (p : ℚ) := by
  refine ⟨mkCell ex p, ?_, rfl, rfl, ?_, ?_, ?_, ?_, rfl, rfl⟩
  · unfold renderExampleHTML
    rw [buildLinesAux_flat hl (ex.sequence.length + 1) 0 (by omega)]
    rw [List.getElem?_map, List.getElem?_range' 0 1 (by omega)]
    simp
  all_goals
    have hcat : (mkCell ex p).category = classify (exBehMask ex p) (exFeatMask ex p) := rfl
    rw [hcat]
    cases hb : exBehMask ex p <;> cases hf : exFeatMask ex p <;> simp [classify]

theorem claim1_witness :
    (0 < 2 ∧ 1 < exampleSeq.sequence.length) ∧
    (∃ c : Cell, ((renderExampleHTML exampleSeq 2).flatMap SeqLine.cells)[1]? = some c ∧
      c = mkCell exampleSeq 1 ∧ c.pos = 1 ∧
      (c.category = .both ↔ (exBehMask exampleSeq 1 = true ∧ exFeatMask exampleSeq 1 = true)) ∧
      (c.category = .beh ↔ (exBehMask exampleSeq 1 = true ∧ exFeatMask exampleSeq 1 = false)) ∧
      (c.category = .feat ↔ (exBehMask exampleSeq 1 = false ∧ exFeatMask exampleSeq 1 = true)) ∧
      (c.category = .plain ↔ (exBehMask exampleSeq 1 = false ∧ exFeatMask exampleSeq 1 = false)) ∧
      c.isTop = (mapGet (topPositionsToMap exampleSeq.top_positions) ((1 : ℕ) : ℚ)).isSome ∧
      c.act = mapGet (topPositionsToMap exampleSeq.top_positions) ((1 : ℕ) : ℚ)) :=
  ⟨⟨by decide, by decide⟩, claim1_classification exampleSeq 2 1 (by decide) (by decide)⟩

end PLM
